import Mathlib

/-!
Verification of the rubiks-race board engine, session coordinator and client
session state machine against the Rust sources (`src/types.rs`, `src/utils.rs`,
`src/handlers.rs`, `src/app/game.rs`).

Boards are 5×5 grids of optional tiles.  A grid is modelled as a total
function from `Nat × Nat` cell coordinates to `Option T`; the cells with both
coordinates below 5 correspond to the Rust `[[Option<T>; 5]; 5]` array.  Rust
`for` loops become structural recursion (`loopRev` / `loopFwd`), and in-place
mutation becomes explicit state passing.
-/

namespace RubiksRace

/-- A cell coordinate `(row, col)`, the Rust `(usize, usize)`. -/
abbrev Pos : Type := Nat × Nat

/-- A 5×5 grid of optional tiles, the Rust `[[Option<T>; 5]; 5]`
(`BoardTiles<T>`); only cells with both coordinates `< 5` are meaningful. -/
abbrev Grid (T : Type) : Type := Pos → Option T

/-- The six tile colors (`Color` in `types.rs`). -/
inductive Color : Type
  | white
  | yellow
  | orange
  | red
  | green
  | blue
  deriving DecidableEq, Repr, Inhabited, Fintype

/-- `Color::from(usize)` in `types.rs`, restricted to the in-range indices
0..5 (the Rust code panics out of range, which no caller reaches). -/
def Color.fromIdx (i : Fin 6) : Color :=
  match i with
  | ⟨0, _⟩ => .white
  | ⟨1, _⟩ => .yellow
  | ⟨2, _⟩ => .orange
  | ⟨3, _⟩ => .red
  | ⟨4, _⟩ => .green
  | ⟨5, _⟩ => .blue
  | ⟨n + 6, h⟩ => absurd h (by omega)

/-- The board: a 5×5 grid plus the hole coordinate (`Board<T>` in `types.rs`,
`BoardInner<T>` in the later iteration imported by `handlers.rs`/`game.rs`). -/
structure Board (T : Type) where
  tiles : Grid T
  hole : Pos

/-- The 3×3 target pattern (`Target` in `types.rs`); only indices `< 3` are
meaningful. -/
abbrev Target : Type := Nat → Nat → Color

/-- `for i in (a..a+n).rev() { s = f s i }`: a Rust reverse range loop,
visiting `a+n-1, a+n-2, ..., a`. -/
def loopRev (f : σ → Nat → σ) (a : Nat) : Nat → σ → σ
  | 0, s => s
  | n + 1, s => loopRev f a n (f s (a + n))

/-- `for i in a..a+n { s = f s i }`: a Rust forward range loop, visiting
`a, a+1, ..., a+n-1`. -/
def loopFwd (f : σ → Nat → σ) : Nat → Nat → σ → σ
  | _, 0, s => s
  | a, n + 1, s => loopFwd f (a + 1) n (f s a)

/-- `Board::click_tile` from `types.rs` (lines 106–153; duplicated verbatim
inside `game_loop` in `handlers.rs`).  Returns the Rust `bool` result paired
with the mutated board.  The `match (row_cmp, col_cmp)` on `Ordering`s is
rendered as the corresponding chain of equality/`<` tests; the final dead
`_ => return false` of the inner same-column match is kept. -/
def Board.click_tile (b : Board T) (pos : Pos) : Bool × Board T :=
  let hole := b.hole
  if pos.1 = hole.1 then
    -- same row
    if pos.2 < hole.2 then
      let tiles1 := loopRev (fun r i => Function.update r (pos.1, i + 1) (r (pos.1, i)))
        pos.2 (hole.2 - pos.2) b.tiles
      (true, ⟨Function.update tiles1 (pos.1, pos.2) none, pos⟩)
    else if hole.2 < pos.2 then
      let tiles1 := loopFwd (fun r i => Function.update r (pos.1, i) (r (pos.1, i + 1)))
        hole.2 (pos.2 - hole.2) b.tiles
      (true, ⟨Function.update tiles1 (pos.1, pos.2) none, pos⟩)
    else (false, b)
  else if pos.2 = hole.2 then
    -- same column
    if pos.1 < hole.1 then
      let tiles1 := loopRev (fun r i => Function.update r (i + 1, pos.2) (r (i, pos.2)))
        pos.1 (hole.1 - pos.1) b.tiles
      (true, ⟨Function.update tiles1 (pos.1, pos.2) none, pos⟩)
    else if hole.1 < pos.1 then
      let tiles1 := loopFwd (fun r i => Function.update r (i, pos.2) (r (i + 1, pos.2)))
        hole.1 (pos.1 - hole.1) b.tiles
      (true, ⟨Function.update tiles1 (pos.1, pos.2) none, pos⟩)
    else (false, b)
  else (false, b)

/-- `slide` from `utils.rs`: runs the callback `f state old new` over the
cells of the sliding move, in source order, threading an explicit state in
place of the Rust `FnMut` closure's captured environment. -/
def slide (pos hole : Pos) (f : σ → Pos → Pos → σ) (s : σ) : Bool × σ :=
  if pos.1 = hole.1 ∧ pos.2 < hole.2 then
    (true, loopRev (fun s i => f s (pos.1, i) (pos.1, i + 1)) pos.2 (hole.2 - pos.2) s)
  else if pos.1 = hole.1 ∧ hole.2 < pos.2 then
    (true, loopFwd (fun s i => f s (pos.1, i + 1) (pos.1, i)) hole.2 (pos.2 - hole.2) s)
  else if pos.1 < hole.1 ∧ pos.2 = hole.2 then
    (true, loopRev (fun s i => f s (i, pos.2) (i + 1, pos.2)) pos.1 (hole.1 - pos.1) s)
  else if hole.1 < pos.1 ∧ pos.2 = hole.2 then
    (true, loopFwd (fun s i => f s (i + 1, pos.2) (i, pos.2)) hole.1 (pos.1 - hole.1) s)
  else (false, s)

/-- `Board::click_pos` from `app/game.rs` (lines 381–399), the client-side
move built on `utils::slide`.  The `update` closure's write
`tiles[new.0][new.1] = tiles[old.0][old.1]` and the hole update `*hole = pos`
guarded by the `slide` result are kept; the `locations` tile-identity
bookkeeping (rendering-only) is elided. -/
def Board.click_pos (b : Board T) (pos : Pos) : Bool × Board T :=
  let upd := fun (g : Grid T) (old new : Pos) => Function.update g new (g old)
  match slide pos b.hole upd b.tiles with
  | (false, _) => (false, b)
  | (true, tiles1) => (true, ⟨tiles1, pos⟩)

/-- `Board::matches_target` from `types.rs`: compares the central 3×3
sub-grid (rows 1..=3, cols 1..=3) cell by cell against the target; an empty
cell fails (`unwrap_or(false)`). -/
def Board.matches_target (b : Board Color) (t : Target) : Bool :=
  (List.range 3).all fun i => (List.range 3).all fun j =>
    match b.tiles (i + 1, j + 1) with
    | some c => c = t i j
    | none => false

/-! ### Board invariant and the generator -/

/-- A coordinate lies inside the 5×5 grid. -/
def inBounds (q : Pos) : Prop := q.1 < 5 ∧ q.2 < 5

instance : DecidablePred inBounds := fun q => (inferInstance : Decidable (q.1 < 5 ∧ q.2 < 5))

/-- Number of in-bounds cells of the grid holding color `c`. -/
def colorCount (g : Grid Color) (c : Color) : Nat :=
  ∑ i in Finset.range 5, ∑ j in Finset.range 5, if g (i, j) = some c then 1 else 0

/-- The board invariant of spec §3: the hole is in bounds, its cell is the
single empty one, every other in-bounds cell is occupied, and each of the 6
colors occupies exactly 4 cells. -/
def boardInvariant (b : Board Color) : Prop :=
  inBounds b.hole ∧ b.tiles b.hole = none ∧
    (∀ i < 5, ∀ j < 5, (i, j) ≠ b.hole → (b.tiles (i, j)).isSome) ∧
    (∀ c : Color, colorCount b.tiles c = 4)

instance (b : Board Color) : Decidable (boardInvariant b) := by
  unfold boardInvariant; infer_instance

/-- The 25 grid cells in row-major order, as visited by the nested
`for (i, row) ... for (j, slot) ...` loops of `Board::generate`. -/
def boardCells : List Pos :=
  (List.range 5).flatMap fun i => (List.range 5).map fun j => (i, j)

/-- The color of index `y` of the unshuffled supply
`colors: [Color; 24] = from_fn(|i| (i / 4).into())` of `Board::generate`. -/
def colorOfFin24 (y : Fin 24) : Color :=
  Color.fromIdx ⟨y.val / 4, by have := y.isLt; omega⟩

/-- Entry `t` of the shuffled color array of `Board::generate`:
`colors.shuffle(&mut rand::thread_rng())` (external randomness) is modelled
by an arbitrary permutation `π` of the 24 indices.  Out-of-range reads do
not occur (the iterator yields exactly 24 colors). -/
def shuffledColor (π : Equiv.Perm (Fin 24)) (t : Nat) : Color :=
  if h : t < 24 then colorOfFin24 (π ⟨t, h⟩) else .white

/-- One iteration of the placement loop of `Board::generate`: skip the
center, otherwise store the next shuffled color and advance the
`colors.next()` iterator (a counter). -/
def generateStep (π : Equiv.Perm (Fin 24)) (st : Grid Color × Nat) (q : Pos) :
    Grid Color × Nat :=
  if q = (2, 2) then st
  else (Function.update st.1 q (some (shuffledColor π st.2)), st.2 + 1)

/-- `Board::generate` from `handlers.rs` (lines 118–140): 24 tiles, four of
each color (`colors[i] = (i / 4).into()`), shuffled, are placed in row-major
order into every cell except the center `(2, 2)`, which becomes the hole. -/
def Board.generate (π : Equiv.Perm (Fin 24)) : Board Color :=
  ⟨(boardCells.foldl (generateStep π) (fun _ => none, 0)).1, (2, 2)⟩

/-- The position of a non-center in-bounds cell in the placement order of
`Board::generate`: its row-major index, minus one past the center. -/
def cellRank (q : Pos) : Nat :=
  if 5 * q.1 + q.2 < 12 then 5 * q.1 + q.2 else 5 * q.1 + q.2 - 1

/-- Inverse of `cellRank` on the 24 non-center cells. -/
def cellUnrank (t : Nat) : Pos :=
  ((if t < 12 then t else t + 1) / 5, (if t < 12 then t else t + 1) % 5)

/-! ### Protocol messages and the session coordinator (`handlers.rs`) -/

/-- The client→server message set.  Modelled from the spec: the compiled
`types.rs` is not among the sources — the copy under `src/` is a superseded
iteration (nothing imports its `Board<T>`; `handlers.rs` and
`app/game.rs` use `BoardInner`/`BoardTiles` instead, and the keepalive loop at
`app/game.rs:117` sends `ClientMessage::Ping`, which that copy lacks).
Spec §6: `ClientMessage::Click{pos}` with 0-indexed coordinates, and
`ClientMessage::Ping` with no payload. -/
inductive ClientMessage : Type
  | click (pos : Pos)
  | ping

/-- `ServerMessage` from `types.rs`; `GameStart` carries the target and both
boards (`board: boards[id].0`, `opponent_board: boards[1 - id].0` in
`game_loop`). -/
inductive ServerMessage : Type
  | gameStart (target : Target) (board opponentBoard : Board Color)
  | opponentLeft
  | opponentClick (pos : Pos)
  | gameEnd (isWin : Bool)

/-- `GameEvent` from `handlers.rs`: an inbound client message or a
disconnect, tagged with the player id. -/
inductive GameEvent : Type
  | message (id : Fin 2) (msg : ClientMessage)
  | disconnected (id : Fin 2)

/-- Result of one iteration of the `game_loop` event loop: continue with the
updated boards after sending `msgs`, or send `msgs` and break. -/
inductive StepResult : Type
  | cont (boards : Fin 2 → Board Color) (msgs : List (Fin 2 × ServerMessage))
  | stop (msgs : List (Fin 2 × ServerMessage))

/-- One iteration of the `while let Some(event)` loop of `game_loop`
(`handlers.rs` lines 209–243).  Sends are collected in order as
`(recipient, message)` pairs.  The `Click` and `Disconnected` arms follow the
source; the `Ping` arm is modelled from the spec (§4.4: "`Ping`: no state
change; purely a liveness signal, acknowledged implicitly by continuing the
loop"), since the compiled `ClientMessage` with `Ping` is not among the
sources (see `ClientMessage`). -/
def game_step (target : Target) (boards : Fin 2 → Board Color) : GameEvent → StepResult
  | .message id (.click pos) =>
    if 5 ≤ pos.1 ∨ 5 ≤ pos.2 then .stop []
    else
      let r := (boards id).click_tile pos
      if !r.1 then .stop []
      else
        let other := 1 - id
        let boards1 := Function.update boards id r.2
        if !r.2.matches_target target then .cont boards1 [(other, .opponentClick pos)]
        else .stop [(other, .opponentClick pos), (id, .gameEnd true), (other, .gameEnd false)]
  | .message _ .ping => .cont boards []
  | .disconnected id => .stop [(1 - id, .opponentLeft)]

/-- The `game_loop` event loop on a queue of pending events: processes events
in order until an iteration breaks, returning the full ordered send trace.
Events after a break are never processed. -/
def game_run (target : Target) (boards : Fin 2 → Board Color) :
    List GameEvent → List (Fin 2 × ServerMessage)
  | [] => []
  | ev :: rest =>
    match game_step target boards ev with
    | .cont boards1 msgs => msgs ++ game_run target boards1 rest
    | .stop msgs => msgs

/-! ### Client session state machine (`app/game.rs`) -/

/-- The `State` enum of `app/game.rs`. -/
inductive ClientState : Type
  | waitingForOpponent
  | playing
  | waitGameEnd
  | gameEnd (isWin : Bool)
  | opponentLeft
  | connectionError
  deriving DecidableEq, Repr

/-- `State::is_end`. -/
def ClientState.is_end : ClientState → Bool
  | .gameEnd _ => true
  | .opponentLeft => true
  | .connectionError => true
  | _ => false

/-- The client-side session data: the `state`, `target`, `board` and
`opponent_board` reactive signals of the `Game` component.  Client boards are
tracked by cell color; the tile-identity `locations` array is rendering-only
and elided. -/
structure ClientSession where
  state : ClientState
  target : Option Target
  board : Option (Board Color)
  opponentBoard : Option (Board Color)

/-- `handle_server_message` from `app/game.rs` (lines 127–167).  Returns
`none` when the code panics (the `expect("playing but no board")` on a click
with no board), otherwise the updated session paired with whether
`do_shutdown()` was invoked. -/
def handle_server_message (s : ClientSession) : ServerMessage → Option (ClientSession × Bool)
  | .gameStart t bd obd =>
    if s.state ≠ .waitingForOpponent then some (s, false)
    else some ({ state := .playing, target := some t, board := some bd,
                 opponentBoard := some obd }, false)
  | .opponentLeft =>
    if !s.state.is_end then some ({ s with state := .opponentLeft }, true)
    else some (s, false)
  | .opponentClick pos =>
    if s.state ≠ .playing then some (s, false)
    else
      match s.opponentBoard with
      | none => none
      | some b => some ({ s with opponentBoard := some (b.click_pos pos).2 }, false)
  | .gameEnd w =>
    if s.state = .playing ∨ s.state = .waitGameEnd then
      some ({ s with state := .gameEnd w }, true)
    else some (s, false)

/-- An inbound websocket item as seen by the client receive loop: a data
frame whose bincode decode succeeded or failed (`bytes`), a non-data frame
(`Ok` of another shape), or a receive error.  Serialization itself is the
transport collaborator's concern, so a frame carries its decode result. -/
inductive RecvFrame : Type
  | bytes (decoded : Option ServerMessage)
  | nonBytes
  | recvError

/-- What the receive loop's `select!` yields: `rx.next()` (with `none` for a
cleanly closed stream) or the shutdown broadcast firing. -/
inductive RecvInput : Type
  | frame (m : Option RecvFrame)
  | shutdown

/-- One iteration of the client websocket receive loop (`app/game.rs` lines
170–193).  `none` models a panic (the `expect("failed to deserialize")` on a
frame that does not decode); otherwise the result is the updated session,
whether `do_shutdown()` ran, and whether the loop exits. -/
def recv_step (s : ClientSession) : RecvInput → Option (ClientSession × Bool × Bool)
  | .frame none => some (s, false, true)
  | .frame (some (.bytes none)) => none
  | .frame (some (.bytes (some m))) =>
    (handle_server_message s m).map fun r => (r.1, r.2, false)
  | .frame (some .nonBytes) => some ({ s with state := .connectionError }, true, true)
  | .frame (some .recvError) => some ({ s with state := .connectionError }, true, true)
  | .shutdown => some (s, false, true)

/-- `send_msg` from `app/game.rs` (lines 96–108): on a failed
`tx.send(msg)`, set the state to `ConnectionError` and trigger the shutdown
signal.  The transport write result is the boolean `sendOk`. -/
def send_msg (s : ClientSession) (sendOk : Bool) : ClientSession × Bool :=
  if sendOk then (s, false) else ({ s with state := .connectionError }, true)

/-! ### Ghost access trace of `click_tile` -/

/-- Every `(row, col)` array index pair evaluated by `Board::click_tile`, in
source order, following the same branch and loop structure: in the same-row
cases each iteration touches `row[i]` and `row[i + 1]` of row `pos.0` and the
epilogue writes `row[pos.1]`; in the same-column cases each iteration touches
`tiles[i][pos.1]` and `tiles[i + 1][pos.1]` and the epilogue writes
`tiles[pos.0][pos.1]`.  (The `&mut tiles[pos.0]` row borrow contributes the
row component of those pairs.) -/
def click_tile_accesses (pos hole : Pos) : List Pos :=
  if pos.1 = hole.1 then
    if pos.2 < hole.2 then
      loopRev (fun (l : List Pos) i => (pos.1, i + 1) :: (pos.1, i) :: l)
        pos.2 (hole.2 - pos.2) [] ++ [(pos.1, pos.2)]
    else if hole.2 < pos.2 then
      loopFwd (fun (l : List Pos) i => (pos.1, i) :: (pos.1, i + 1) :: l)
        hole.2 (pos.2 - hole.2) [] ++ [(pos.1, pos.2)]
    else []
  else if pos.2 = hole.2 then
    if pos.1 < hole.1 then
      loopRev (fun (l : List Pos) i => (i + 1, pos.2) :: (i, pos.2) :: l)
        pos.1 (hole.1 - pos.1) [] ++ [(pos.1, pos.2)]
    else if hole.1 < pos.1 then
      loopFwd (fun (l : List Pos) i => (i, pos.2) :: (i + 1, pos.2) :: l)
        hole.1 (pos.1 - hole.1) [] ++ [(pos.1, pos.2)]
    else []
  else []

/-! ### Segment and rotation vocabulary for the slide specification -/

/-- The cells of the straight segment spanned by the clicked position `p` and
the hole `h` (inclusive), when they share a row or a column. -/
def onSegment (p h q : Pos) : Prop :=
  (p.1 = h.1 ∧ q.1 = p.1 ∧ min p.2 h.2 ≤ q.2 ∧ q.2 ≤ max p.2 h.2) ∨
    (p.2 = h.2 ∧ q.2 = p.2 ∧ min p.1 h.1 ≤ q.1 ∧ q.1 ≤ max p.1 h.1)

instance (p h q : Pos) : Decidable (onSegment p h q) := by
  unfold onSegment; infer_instance

/-- The source cell of the one-step rotation along the segment from `p` to
`h`: each segment cell takes the value of its neighbour one step closer to
the clicked cell `p`, and `p` itself (cyclically) takes the old hole's. -/
def rotSrc (p h q : Pos) : Pos :=
  if q = p then h
  else if p.1 = h.1 then (q.1, if p.2 < q.2 then q.2 - 1 else q.2 + 1)
  else (if p.1 < q.1 then q.1 - 1 else q.1 + 1, q.2)

/-! ### Concrete fixtures for witnesses and counterexamples -/

/-- Row fixture: hole at the center `(2, 2)`; row 2 reads
`[red, green, hole, blue, white]`; all other cells empty. -/
def exRowBoard : Board Color :=
  ⟨fun q =>
    if q = (2, 0) then some .red
    else if q = (2, 1) then some .green
    else if q = (2, 3) then some .blue
    else if q = (2, 4) then some .white
    else none,
   (2, 2)⟩

/-- A board with the hole at `(0, 0)` and every other in-bounds cell white;
its central 3×3 block stays all white after clicking `(0, 1)`. -/
def exWhiteBoard : Board Color :=
  ⟨fun q => if q = (0, 0) then none else if q.1 < 5 ∧ q.2 < 5 then some .white else none,
   (0, 0)⟩

/-- The all-white target. -/
def exWhiteTarget : Target := fun _ _ => .white

/-- A client session in the `Playing` state holding the row fixture. -/
def exPlayingSession : ClientSession :=
  ⟨.playing, some exWhiteTarget, some exRowBoard, some exRowBoard⟩

/-! ## Pointwise characterization of the slide loops -/

/-- The same-row left-click loop `for i in (a..a+n).rev() { row[i+1] = row[i] }`
shifts the cells `a+1 ..= a+n` of row `p0` one step rightwards. -/
theorem loopRev_row_apply {T : Type} (p0 a : Nat) (n : Nat) (g : Grid T) (q : Pos) :
    loopRev (fun r i => Function.update r (p0, i + 1) (r (p0, i))) a n g q =
      if q.1 = p0 ∧ a < q.2 ∧ q.2 ≤ a + n then g (p0, q.2 - 1) else g q := by
  induction n generalizing g with
  | zero =>
    simp only [loopRev, Nat.add_zero]
    rw [if_neg]
    rintro ⟨-, h1, h2⟩
    omega
  | succ n ih =>
    simp only [loopRev]
    rw [ih]
    rcases q with ⟨q1, q2⟩
    simp only [Function.update_apply, Prod.mk.injEq]
    split_ifs <;>
      first
        | rfl
        | omega
        | (congr 2; omega)

/-- The same-row right-click loop `for i in b0..b0+n { row[i] = row[i+1] }`
shifts the cells `b0 ..= b0+n-1` of row `p0` one step leftwards. -/
theorem loopFwd_row_apply {T : Type} (p0 : Nat) (n b0 : Nat) (g : Grid T) (q : Pos) :
    loopFwd (fun r i => Function.update r (p0, i) (r (p0, i + 1))) b0 n g q =
      if q.1 = p0 ∧ b0 ≤ q.2 ∧ q.2 < b0 + n then g (p0, q.2 + 1) else g q := by
  induction n generalizing b0 g with
  | zero =>
    simp only [loopFwd, Nat.add_zero]
    rw [if_neg]
    rintro ⟨-, h1, h2⟩
    omega
  | succ n ih =>
    simp only [loopFwd]
    rw [ih]
    rcases q with ⟨q1, q2⟩
    simp only [Function.update_apply, Prod.mk.injEq]
    split_ifs <;>
      first
        | rfl
        | omega
        | (congr 2; omega)

/-- The same-column up-click loop `for i in (a..a+n).rev() { tiles[i+1][p1] =
tiles[i][p1] }` shifts the cells `a+1 ..= a+n` of column `p1` one step
downwards. -/
theorem loopRev_col_apply {T : Type} (p1 a : Nat) (n : Nat) (g : Grid T) (q : Pos) :
    loopRev (fun r i => Function.update r (i + 1, p1) (r (i, p1))) a n g q =
      if q.2 = p1 ∧ a < q.1 ∧ q.1 ≤ a + n then g (q.1 - 1, p1) else g q := by
  induction n generalizing g with
  | zero =>
    simp only [loopRev, Nat.add_zero]
    rw [if_neg]
    rintro ⟨-, h1, h2⟩
    omega
  | succ n ih =>
    simp only [loopRev]
    rw [ih]
    rcases q with ⟨q1, q2⟩
    simp only [Function.update_apply, Prod.mk.injEq]
    split_ifs <;>
      first
        | rfl
        | omega
        | (congr 2; omega)

/-- The same-column down-click loop `for i in b0..b0+n { tiles[i][p1] =
tiles[i+1][p1] }` shifts the cells `b0 ..= b0+n-1` of column `p1` one step
upwards. -/
theorem loopFwd_col_apply {T : Type} (p1 : Nat) (n b0 : Nat) (g : Grid T) (q : Pos) :
    loopFwd (fun r i => Function.update r (i, p1) (r (i + 1, p1))) b0 n g q =
      if q.2 = p1 ∧ b0 ≤ q.1 ∧ q.1 < b0 + n then g (q.1 + 1, p1) else g q := by
  induction n generalizing b0 g with
  | zero =>
    simp only [loopFwd, Nat.add_zero]
    rw [if_neg]
    rintro ⟨-, h1, h2⟩
    omega
  | succ n ih =>
    simp only [loopFwd]
    rw [ih]
    rcases q with ⟨q1, q2⟩
    simp only [Function.update_apply, Prod.mk.injEq]
    split_ifs <;>
      first
        | rfl
        | omega
        | (congr 2; omega)

/-! ## Characterization of `click_tile` -/

/-- A click sharing exactly the row or exactly the column with the hole
succeeds and moves the hole to the clicked coordinate. -/
theorem click_tile_moves {T : Type} (b : Board T) (pos : Pos)
    (h : (pos.1 = b.hole.1 ∧ pos.2 ≠ b.hole.2) ∨ (pos.2 = b.hole.2 ∧ pos.1 ≠ b.hole.1)) :
    (b.click_tile pos).1 = true ∧ (b.click_tile pos).2.hole = pos := by
  rcases h with ⟨h0, hne⟩ | ⟨h0, hne⟩
  · rcases Nat.lt_or_ge pos.2 b.hole.2 with hlt | hge
    · simp [Board.click_tile, h0, hlt]
    · have hgt : b.hole.2 < pos.2 := by omega
      simp [Board.click_tile, h0, hgt, Nat.lt_asymm hgt]
  · have hne1 : ¬ pos.1 = b.hole.1 := hne
    rcases Nat.lt_or_ge pos.1 b.hole.1 with hlt | hge
    · simp [Board.click_tile, h0, hne1, hlt]
    · have hgt : b.hole.1 < pos.1 := by omega
      simp [Board.click_tile, h0, hne1, hgt, Nat.lt_asymm hgt]

/-- A click sharing neither coordinate with the hole, or equal to it, fails
and leaves the board untouched. -/
theorem click_tile_no_move {T : Type} (b : Board T) (pos : Pos)
    (h : (pos.1 ≠ b.hole.1 ∧ pos.2 ≠ b.hole.2) ∨ pos = b.hole) :
    b.click_tile pos = (false, b) := by
  rcases h with ⟨h1, h2⟩ | rfl
  · simp [Board.click_tile, h1, h2]
  · simp [Board.click_tile]

/-- Tiles after a same-row click left of the hole: cells of the clicked row
strictly between the click and (inclusively) the hole take their left
neighbour's value, the clicked cell empties, everything else is unchanged. -/
theorem click_tile_tiles_row_lt {T : Type} (b : Board T) (pos : Pos)
    (h0 : pos.1 = b.hole.1) (hlt : pos.2 < b.hole.2) (q : Pos) :
    (b.click_tile pos).2.tiles q =
      if q = pos then none
      else if q.1 = pos.1 ∧ pos.2 < q.2 ∧ q.2 ≤ b.hole.2 then b.tiles (pos.1, q.2 - 1)
      else b.tiles q := by
  simp only [Board.click_tile, if_pos h0, if_pos hlt]
  simp only [Function.update_apply, loopRev_row_apply, Nat.add_sub_cancel' (Nat.le_of_lt hlt)]

/-- Tiles after a same-row click right of the hole: cells of the clicked row
from the hole (inclusive) to strictly before the click take their right
neighbour's value, the clicked cell empties, everything else is unchanged. -/
theorem click_tile_tiles_row_gt {T : Type} (b : Board T) (pos : Pos)
    (h0 : pos.1 = b.hole.1) (hgt : b.hole.2 < pos.2) (q : Pos) :
    (b.click_tile pos).2.tiles q =
      if q = pos then none
      else if q.1 = pos.1 ∧ b.hole.2 ≤ q.2 ∧ q.2 < pos.2 then b.tiles (pos.1, q.2 + 1)
      else b.tiles q := by
  simp only [Board.click_tile, if_pos h0, if_neg (Nat.lt_asymm hgt), if_pos hgt]
  simp only [Function.update_apply, loopFwd_row_apply, Nat.add_sub_cancel' (Nat.le_of_lt hgt)]

/-- Tiles after a same-column click above the hole. -/
theorem click_tile_tiles_col_lt {T : Type} (b : Board T) (pos : Pos)
    (h0 : pos.2 = b.hole.2) (hne : pos.1 ≠ b.hole.1) (hlt : pos.1 < b.hole.1) (q : Pos) :
    (b.click_tile pos).2.tiles q =
      if q = pos then none
      else if q.2 = pos.2 ∧ pos.1 < q.1 ∧ q.1 ≤ b.hole.1 then b.tiles (q.1 - 1, pos.2)
      else b.tiles q := by
  simp only [Board.click_tile, if_neg hne, if_pos h0, if_pos hlt]
  simp only [Function.update_apply, loopRev_col_apply, Nat.add_sub_cancel' (Nat.le_of_lt hlt)]

/-- Tiles after a same-column click below the hole. -/
theorem click_tile_tiles_col_gt {T : Type} (b : Board T) (pos : Pos)
    (h0 : pos.2 = b.hole.2) (hne : pos.1 ≠ b.hole.1) (hgt : b.hole.1 < pos.1) (q : Pos) :
    (b.click_tile pos).2.tiles q =
      if q = pos then none
      else if q.2 = pos.2 ∧ b.hole.1 ≤ q.1 ∧ q.1 < pos.1 then b.tiles (q.1 + 1, pos.2)
      else b.tiles q := by
  simp only [Board.click_tile, if_neg hne, if_pos h0, if_neg (Nat.lt_asymm hgt), if_pos hgt]
  simp only [Function.update_apply, loopFwd_col_apply, Nat.add_sub_cancel' (Nat.le_of_lt hgt)]

/-! ## Characterization of the client `click_pos` -/

/-- `click_pos` succeeds exactly when the click shares one coordinate with
the hole, and then also moves the hole to the click. -/
theorem click_pos_moves {T : Type} (b : Board T) (pos : Pos)
    (h : (pos.1 = b.hole.1 ∧ pos.2 ≠ b.hole.2) ∨ (pos.2 = b.hole.2 ∧ pos.1 ≠ b.hole.1)) :
    (b.click_pos pos).1 = true ∧ (b.click_pos pos).2.hole = pos := by
  rcases h with ⟨h0, hne⟩ | ⟨h0, hne⟩
  · rcases Nat.lt_or_ge pos.2 b.hole.2 with hlt | hge
    · simp [Board.click_pos, slide, h0, hlt]
    · have hgt : b.hole.2 < pos.2 := by omega
      simp [Board.click_pos, slide, h0, hgt, Nat.lt_asymm hgt]
  · have hne1 : ¬ pos.1 = b.hole.1 := hne
    rcases Nat.lt_or_ge pos.1 b.hole.1 with hlt | hge
    · simp [Board.click_pos, slide, h0, hne1, hlt]
    · have hgt : b.hole.1 < pos.1 := by omega
      simp [Board.click_pos, slide, h0, hne1, hgt, Nat.lt_asymm hgt]

/-- A non-sharing or hole click is a `click_pos` no-op as well. -/
theorem click_pos_no_move {T : Type} (b : Board T) (pos : Pos)
    (h : (pos.1 ≠ b.hole.1 ∧ pos.2 ≠ b.hole.2) ∨ pos = b.hole) :
    b.click_pos pos = (false, b) := by
  rcases h with ⟨h1, h2⟩ | rfl
  · simp [Board.click_pos, slide, h1, h2]
  · simp [Board.click_pos, slide]

/-- Tiles after a successful same-row `click_pos` left of the hole: the same
shift as `click_tile`, except that no cell is emptied. -/
theorem click_pos_tiles_row_lt {T : Type} (b : Board T) (pos : Pos)
    (h0 : pos.1 = b.hole.1) (hlt : pos.2 < b.hole.2) (q : Pos) :
    (b.click_pos pos).2.tiles q =
      if q.1 = pos.1 ∧ pos.2 < q.2 ∧ q.2 ≤ b.hole.2 then b.tiles (pos.1, q.2 - 1)
      else b.tiles q := by
  simp only [Board.click_pos, slide, if_pos (And.intro h0 hlt)]
  simp only [loopRev_row_apply, Nat.add_sub_cancel' (Nat.le_of_lt hlt)]

/-- Tiles after a successful same-row `click_pos` right of the hole. -/
theorem click_pos_tiles_row_gt {T : Type} (b : Board T) (pos : Pos)
    (h0 : pos.1 = b.hole.1) (hgt : b.hole.2 < pos.2) (q : Pos) :
    (b.click_pos pos).2.tiles q =
      if q.1 = pos.1 ∧ b.hole.2 ≤ q.2 ∧ q.2 < pos.2 then b.tiles (pos.1, q.2 + 1)
      else b.tiles q := by
  have hn : ¬ (pos.1 = b.hole.1 ∧ pos.2 < b.hole.2) := fun hc => Nat.lt_asymm hgt hc.2
  simp only [Board.click_pos, slide, if_neg hn, if_pos (And.intro h0 hgt)]
  simp only [loopFwd_row_apply, Nat.add_sub_cancel' (Nat.le_of_lt hgt)]

/-- Tiles after a successful same-column `click_pos` above the hole. -/
theorem click_pos_tiles_col_lt {T : Type} (b : Board T) (pos : Pos)
    (h0 : pos.2 = b.hole.2) (hne : pos.1 ≠ b.hole.1) (hlt : pos.1 < b.hole.1) (q : Pos) :
    (b.click_pos pos).2.tiles q =
      if q.2 = pos.2 ∧ pos.1 < q.1 ∧ q.1 ≤ b.hole.1 then b.tiles (q.1 - 1, pos.2)
      else b.tiles q := by
  have hn1 : ¬ (pos.1 = b.hole.1 ∧ pos.2 < b.hole.2) := fun hc => hne hc.1
  have hn2 : ¬ (pos.1 = b.hole.1 ∧ b.hole.2 < pos.2) := fun hc => hne hc.1
  simp only [Board.click_pos, slide, if_neg hn1, if_neg hn2, if_pos (And.intro hlt h0)]
  simp only [loopRev_col_apply, Nat.add_sub_cancel' (Nat.le_of_lt hlt)]

/-- Tiles after a successful same-column `click_pos` below the hole. -/
theorem click_pos_tiles_col_gt {T : Type} (b : Board T) (pos : Pos)
    (h0 : pos.2 = b.hole.2) (hne : pos.1 ≠ b.hole.1) (hgt : b.hole.1 < pos.1) (q : Pos) :
    (b.click_pos pos).2.tiles q =
      if q.2 = pos.2 ∧ b.hole.1 ≤ q.1 ∧ q.1 < pos.1 then b.tiles (q.1 + 1, pos.2)
      else b.tiles q := by
  have hn1 : ¬ (pos.1 = b.hole.1 ∧ pos.2 < b.hole.2) := fun hc => hne hc.1
  have hn2 : ¬ (pos.1 = b.hole.1 ∧ b.hole.2 < pos.2) := fun hc => hne hc.1
  have hn3 : ¬ (pos.1 < b.hole.1 ∧ pos.2 = b.hole.2) := fun hc => Nat.lt_asymm hgt hc.1
  simp only [Board.click_pos, slide, if_neg hn1, if_neg hn2, if_neg hn3,
    if_pos (And.intro hgt h0)]
  simp only [loopFwd_col_apply, Nat.add_sub_cancel' (Nat.le_of_lt hgt)]

/-! ## Claim C1 -/

/-- C1: for every 5×5 board with hole `h` and every in-bounds click `p`
sharing exactly the row or exactly the column with `h` (`p ≠ h`),
`click_tile` returns `true`; afterwards the hole is `p`, the cell at `p` is
empty, the remaining content is rotated one step along the row/column
segment spanned by `p` and the old hole (each segment cell takes the value
of its neighbour one step closer to `p`; cyclically, `p`'s source is the old
hole cell), and no cell outside that segment changes. -/
theorem claim_C1_valid_click_rotates_segment (b : Board Color) (pos : Pos)
    (_hpos : inBounds pos) (_hhole : inBounds b.hole)
    (hshare : (pos.1 = b.hole.1 ∧ pos.2 ≠ b.hole.2) ∨ (pos.2 = b.hole.2 ∧ pos.1 ≠ b.hole.1)) :
    (b.click_tile pos).1 = true ∧
    (b.click_tile pos).2.hole = pos ∧
    (b.click_tile pos).2.tiles pos = none ∧
    (∀ q : Pos, onSegment pos b.hole q → q ≠ pos →
      (b.click_tile pos).2.tiles q = b.tiles (rotSrc pos b.hole q)) ∧
    (∀ q : Pos, ¬ onSegment pos b.hole q → (b.click_tile pos).2.tiles q = b.tiles q) := by
  obtain ⟨hT, hH⟩ := click_tile_moves b pos hshare
  have hself : onSegment pos b.hole pos := by
    rcases hshare with ⟨h0, -⟩ | ⟨h0, -⟩
    · exact Or.inl ⟨h0, rfl, by omega, by omega⟩
    · exact Or.inr ⟨h0, rfl, by omega, by omega⟩
  rcases hshare with ⟨h0, hne⟩ | ⟨h0, hne⟩
  · -- same row
    rcases Nat.lt_or_ge pos.2 b.hole.2 with hlt | hge
    · -- click left of the hole
      have hchar := click_tile_tiles_row_lt b pos h0 hlt
      refine ⟨hT, hH, by rw [hchar pos, if_pos rfl], ?_, ?_⟩
      · intro q hseg hqp
        have hq : q.1 = pos.1 ∧ pos.2 < q.2 ∧ q.2 ≤ b.hole.2 := by
          rcases hseg with ⟨-, hq1, hmin, hmax⟩ | ⟨hc, -, -, -⟩
          · have h2 : q.2 ≠ pos.2 := fun h => hqp (Prod.ext hq1 h)
            exact ⟨hq1, by omega, by omega⟩
          · exact absurd hc hne
        rw [hchar q, if_neg hqp, if_pos hq]
        simp only [rotSrc]
        rw [if_neg hqp, if_pos h0, if_pos hq.2.1]
        congr 2
        omega
      · intro q hns
        have hqp : q ≠ pos := fun h => hns (by rw [h]; exact hself)
        rw [hchar q, if_neg hqp, if_neg]
        intro hc
        exact hns (Or.inl ⟨h0, hc.1, by omega, by omega⟩)
    · -- click right of the hole
      have hgt : b.hole.2 < pos.2 := by omega
      have hchar := click_tile_tiles_row_gt b pos h0 hgt
      refine ⟨hT, hH, by rw [hchar pos, if_pos rfl], ?_, ?_⟩
      · intro q hseg hqp
        have hq : q.1 = pos.1 ∧ b.hole.2 ≤ q.2 ∧ q.2 < pos.2 := by
          rcases hseg with ⟨-, hq1, hmin, hmax⟩ | ⟨hc, -, -, -⟩
          · have h2 : q.2 ≠ pos.2 := fun h => hqp (Prod.ext hq1 h)
            exact ⟨hq1, by omega, by omega⟩
          · exact absurd hc hne
        rw [hchar q, if_neg hqp, if_pos hq]
        have hnlt : ¬ pos.2 < q.2 := by omega
        simp only [rotSrc]
        rw [if_neg hqp, if_pos h0, if_neg hnlt]
        congr 2
        omega
      · intro q hns
        have hqp : q ≠ pos := fun h => hns (by rw [h]; exact hself)
        rw [hchar q, if_neg hqp, if_neg]
        intro hc
        exact hns (Or.inl ⟨h0, hc.1, by omega, by omega⟩)
  · -- same column
    have hne1 : pos.1 ≠ b.hole.1 := hne
    rcases Nat.lt_or_ge pos.1 b.hole.1 with hlt | hge
    · have hchar := click_tile_tiles_col_lt b pos h0 hne1 hlt
      refine ⟨hT, hH, by rw [hchar pos, if_pos rfl], ?_, ?_⟩
      · intro q hseg hqp
        have hq : q.2 = pos.2 ∧ pos.1 < q.1 ∧ q.1 ≤ b.hole.1 := by
          rcases hseg with ⟨hc, -, -, -⟩ | ⟨-, hq2, hmin, hmax⟩
          · exact absurd hc hne1
          · have h1 : q.1 ≠ pos.1 := fun h => hqp (Prod.ext h hq2)
            exact ⟨hq2, by omega, by omega⟩
        rw [hchar q, if_neg hqp, if_pos hq]
        simp only [rotSrc]
        rw [if_neg hqp, if_neg hne1, if_pos hq.2.1]
        congr 2
        omega
      · intro q hns
        have hqp : q ≠ pos := fun h => hns (by rw [h]; exact hself)
        rw [hchar q, if_neg hqp, if_neg]
        intro hc
        exact hns (Or.inr ⟨h0, hc.1, by omega, by omega⟩)
    · have hgt : b.hole.1 < pos.1 := by omega
      have hchar := click_tile_tiles_col_gt b pos h0 hne1 hgt
      refine ⟨hT, hH, by rw [hchar pos, if_pos rfl], ?_, ?_⟩
      · intro q hseg hqp
        have hq : q.2 = pos.2 ∧ b.hole.1 ≤ q.1 ∧ q.1 < pos.1 := by
          rcases hseg with ⟨hc, -, -, -⟩ | ⟨-, hq2, hmin, hmax⟩
          · exact absurd hc hne1
          · have h1 : q.1 ≠ pos.1 := fun h => hqp (Prod.ext h hq2)
            exact ⟨hq2, by omega, by omega⟩
        rw [hchar q, if_neg hqp, if_pos hq]
        have hnlt : ¬ pos.1 < q.1 := by omega
        simp only [rotSrc]
        rw [if_neg hqp, if_neg hne1, if_neg hnlt]
        congr 2
        omega
      · intro q hns
        have hqp : q ≠ pos := fun h => hns (by rw [h]; exact hself)
        rw [hchar q, if_neg hqp, if_neg]
        intro hc
        exact hns (Or.inr ⟨h0, hc.1, by omega, by omega⟩)

/-- Witness for C1 at the row fixture, clicking `(2, 0)` with hole `(2, 2)`. -/
theorem claim_C1_valid_click_rotates_segment_witness :
    inBounds ((2, 0) : Pos) ∧ inBounds exRowBoard.hole ∧
    ((((2, 0) : Pos).1 = exRowBoard.hole.1 ∧ ((2, 0) : Pos).2 ≠ exRowBoard.hole.2) ∨
      (((2, 0) : Pos).2 = exRowBoard.hole.2 ∧ ((2, 0) : Pos).1 ≠ exRowBoard.hole.1)) ∧
    ((exRowBoard.click_tile (2, 0)).1 = true ∧
     (exRowBoard.click_tile (2, 0)).2.hole = (2, 0) ∧
     (exRowBoard.click_tile (2, 0)).2.tiles (2, 0) = none ∧
     (∀ q : Pos, onSegment (2, 0) exRowBoard.hole q → q ≠ (2, 0) →
       (exRowBoard.click_tile (2, 0)).2.tiles q = exRowBoard.tiles (rotSrc (2, 0) exRowBoard.hole q)) ∧
     (∀ q : Pos, ¬ onSegment (2, 0) exRowBoard.hole q →
       (exRowBoard.click_tile (2, 0)).2.tiles q = exRowBoard.tiles q)) :=
  ⟨by decide, by decide, by decide,
   claim_C1_valid_click_rotates_segment exRowBoard (2, 0) (by decide) (by decide) (by decide)⟩

/-! ## Claim C2 -/

/-- C2 counterexample: with the row fixture (hole `(2, 2)`, `(2,0) = red`),
clicking `(2, 0)` leaves at the intermediate cell `(2, 1)` the value of its
neighbour one step closer to the *click* (`old board[2][0] = red`), not the
value of its neighbour one step closer to the *old hole* (`old board[2][2]`)
as the claim states. -/
theorem claim_C2_counterexample :
    (exRowBoard.click_tile (2, 0)).2.tiles (2, 1) ≠ exRowBoard.tiles (2, 2) := by decide

/-- C2 (amended): during a same-row `click_tile` every tile strictly between
the hole and the clicked column shifts one cell toward the *old hole* — each
intermediate cell takes the value of its neighbour one step closer to the
*clicked* position — the clicked cell becomes empty and the hole moves to
the clicked coordinate; symmetric logic applies to same-column slides.  (The
claim had the two directions swapped; spec §8's own scenario
`board[2][1] == old board[2][0]` agrees with this amended direction.) -/
theorem claim_C2_amended_shift_toward_hole (b : Board Color) (pos : Pos)
    (hshare : (pos.1 = b.hole.1 ∧ pos.2 ≠ b.hole.2) ∨ (pos.2 = b.hole.2 ∧ pos.1 ≠ b.hole.1)) :
    (b.click_tile pos).1 = true ∧
    (b.click_tile pos).2.hole = pos ∧
    (b.click_tile pos).2.tiles pos = none ∧
    (pos.1 = b.hole.1 →
      (∀ j, pos.2 < j → j < b.hole.2 →
        (b.click_tile pos).2.tiles (pos.1, j) = b.tiles (pos.1, j - 1)) ∧
      (∀ j, b.hole.2 < j → j < pos.2 →
        (b.click_tile pos).2.tiles (pos.1, j) = b.tiles (pos.1, j + 1))) ∧
    (pos.2 = b.hole.2 →
      (∀ i, pos.1 < i → i < b.hole.1 →
        (b.click_tile pos).2.tiles (i, pos.2) = b.tiles (i - 1, pos.2)) ∧
      (∀ i, b.hole.1 < i → i < pos.1 →
        (b.click_tile pos).2.tiles (i, pos.2) = b.tiles (i + 1, pos.2))) := by
  obtain ⟨hT, hH⟩ := click_tile_moves b pos hshare
  refine ⟨hT, hH, ?_, ?_, ?_⟩
  · rcases hshare with ⟨h0, hne⟩ | ⟨h0, hne⟩
    · rcases Nat.lt_or_ge pos.2 b.hole.2 with hlt | hge
      · rw [click_tile_tiles_row_lt b pos h0 hlt pos, if_pos rfl]
      · rw [click_tile_tiles_row_gt b pos h0 (by omega) pos, if_pos rfl]
    · rcases Nat.lt_or_ge pos.1 b.hole.1 with hlt | hge
      · rw [click_tile_tiles_col_lt b pos h0 hne hlt pos, if_pos rfl]
      · rw [click_tile_tiles_col_gt b pos h0 hne (by omega) pos, if_pos rfl]
  · intro h0
    constructor
    · intro j h1 h2
      have hqp : ((pos.1, j) : Pos) ≠ pos := fun h => by
        have := congrArg Prod.snd h
        simp at this
        omega
      rw [click_tile_tiles_row_lt b pos h0 (by omega) (pos.1, j), if_neg hqp,
        if_pos ⟨rfl, by omega, by omega⟩]
    · intro j h1 h2
      have hqp : ((pos.1, j) : Pos) ≠ pos := fun h => by
        have := congrArg Prod.snd h
        simp at this
        omega
      rw [click_tile_tiles_row_gt b pos h0 (by omega) (pos.1, j), if_neg hqp,
        if_pos ⟨rfl, by omega, by omega⟩]
  · intro h0
    have hne1 : pos.1 ≠ b.hole.1 := by
      rcases hshare with ⟨-, hne⟩ | ⟨-, hne⟩
      · exact absurd h0 hne
      · exact hne
    constructor
    · intro i h1 h2
      have hqp : ((i, pos.2) : Pos) ≠ pos := fun h => by
        have := congrArg Prod.fst h
        simp at this
        omega
      rw [click_tile_tiles_col_lt b pos h0 hne1 (by omega) (i, pos.2), if_neg hqp,
        if_pos ⟨rfl, by omega, by omega⟩]
    · intro i h1 h2
      have hqp : ((i, pos.2) : Pos) ≠ pos := fun h => by
        have := congrArg Prod.fst h
        simp at this
        omega
      rw [click_tile_tiles_col_gt b pos h0 hne1 (by omega) (i, pos.2), if_neg hqp,
        if_pos ⟨rfl, by omega, by omega⟩]

/-- Witness for the amended C2 at the row fixture, clicking `(2, 0)`. -/
theorem claim_C2_amended_shift_toward_hole_witness :
    ((((2, 0) : Pos).1 = exRowBoard.hole.1 ∧ ((2, 0) : Pos).2 ≠ exRowBoard.hole.2) ∨
      (((2, 0) : Pos).2 = exRowBoard.hole.2 ∧ ((2, 0) : Pos).1 ≠ exRowBoard.hole.1)) ∧
    (exRowBoard.click_tile (2, 0)).1 = true ∧
    (exRowBoard.click_tile (2, 0)).2.tiles (2, 1) = exRowBoard.tiles (2, 0) :=
  ⟨by decide, (claim_C2_amended_shift_toward_hole exRowBoard (2, 0) (by decide)).1,
   by
    have h := ((claim_C2_amended_shift_toward_hole exRowBoard (2, 0) (by decide)).2.2.2.1
      (by decide)).1 1 (by decide) (by decide)
    simpa using h⟩

/-! ## Claim C3 -/

/-- C3: a click that shares neither the row nor the column with the hole, or
that equals the hole, returns `false` and leaves the board (tiles and hole)
byte-for-byte unchanged — for the server `click_tile` and the client
`click_pos` alike. -/
theorem claim_C3_invalid_click_is_noop {T : Type} (b : Board T) (pos : Pos)
    (h : (pos.1 ≠ b.hole.1 ∧ pos.2 ≠ b.hole.2) ∨ pos = b.hole) :
    b.click_tile pos = (false, b) ∧ b.click_pos pos = (false, b) :=
  ⟨click_tile_no_move b pos h, click_pos_no_move b pos h⟩

/-- Witness for C3 at the row fixture, clicking `(1, 0)` (no shared axis). -/
theorem claim_C3_invalid_click_is_noop_witness :
    ((((1, 0) : Pos).1 ≠ exRowBoard.hole.1 ∧ ((1, 0) : Pos).2 ≠ exRowBoard.hole.2) ∨
      ((1, 0) : Pos) = exRowBoard.hole) ∧
    exRowBoard.click_tile (1, 0) = (false, exRowBoard) ∧
    exRowBoard.click_pos (1, 0) = (false, exRowBoard) :=
  ⟨by decide, claim_C3_invalid_click_is_noop exRowBoard (1, 0) (by decide)⟩

/-! ## Claim C9 -/

/-- C9 counterexample: the two slide implementations do **not** produce the
same final tiles: after clicking `(2, 0)` on the row fixture, `click_tile`
empties the clicked cell while `click_pos` leaves the stale pre-move value
there (its `update` closure never writes `None`). -/
theorem claim_C9_counterexample :
    (exRowBoard.click_tile (2, 0)).2.tiles (2, 0) ≠
      (exRowBoard.click_pos (2, 0)).2.tiles (2, 0) := by decide

/-- C9 (amended): for every board content, hole and click position, the
server `click_tile` and the client `click_pos` return the same boolean and
the same hole, and their final tiles agree on every cell except possibly the
clicked one: on success `click_tile` stores `None` there while `click_pos`
keeps the stale pre-move value; on failure both leave the board untouched. -/
theorem claim_C9_amended_click_pos_refines_click_tile {T : Type} (b : Board T) (pos : Pos) :
    (b.click_tile pos).1 = (b.click_pos pos).1 ∧
    (b.click_tile pos).2.hole = (b.click_pos pos).2.hole ∧
    (∀ q : Pos, q ≠ pos → (b.click_tile pos).2.tiles q = (b.click_pos pos).2.tiles q) ∧
    ((b.click_tile pos).1 = true →
      (b.click_tile pos).2.tiles pos = none ∧ (b.click_pos pos).2.tiles pos = b.tiles pos) ∧
    ((b.click_tile pos).1 = false → b.click_tile pos = (false, b) ∧ b.click_pos pos = (false, b)) := by
  by_cases hr : pos.1 = b.hole.1
  · by_cases hc : pos.2 = b.hole.2
    · -- the clicked cell is the hole: both are no-ops
      have hpos : pos = b.hole := Prod.ext hr hc
      have h1 := click_tile_no_move b pos (Or.inr hpos)
      have h2 := click_pos_no_move b pos (Or.inr hpos)
      rw [h1, h2]
      exact ⟨rfl, rfl, fun q _ => rfl, fun h => absurd h Bool.false_ne_true, fun _ => ⟨rfl, rfl⟩⟩
    · -- same row
      have hshare : (pos.1 = b.hole.1 ∧ pos.2 ≠ b.hole.2) ∨
          (pos.2 = b.hole.2 ∧ pos.1 ≠ b.hole.1) := Or.inl ⟨hr, hc⟩
      obtain ⟨hT1, hH1⟩ := click_tile_moves b pos hshare
      obtain ⟨hT2, hH2⟩ := click_pos_moves b pos hshare
      rcases Nat.lt_or_ge pos.2 b.hole.2 with hlt | hge
      · have e1 := click_tile_tiles_row_lt b pos hr hlt
        have e2 := click_pos_tiles_row_lt b pos hr hlt
        refine ⟨by rw [hT1, hT2], by rw [hH1, hH2], ?_, ?_, ?_⟩
        · intro q hq
          rw [e1 q, e2 q, if_neg hq]
        · intro _
          refine ⟨by rw [e1 pos, if_pos rfl], ?_⟩
          rw [e2 pos, if_neg]
          rintro ⟨-, hlt2, -⟩
          omega
        · intro hf
          rw [hT1] at hf
          cases hf
      · have hgt : b.hole.2 < pos.2 := by omega
        have e1 := click_tile_tiles_row_gt b pos hr hgt
        have e2 := click_pos_tiles_row_gt b pos hr hgt
        refine ⟨by rw [hT1, hT2], by rw [hH1, hH2], ?_, ?_, ?_⟩
        · intro q hq
          rw [e1 q, e2 q, if_neg hq]
        · intro _
          refine ⟨by rw [e1 pos, if_pos rfl], ?_⟩
          rw [e2 pos, if_neg]
          rintro ⟨-, -, hlt2⟩
          omega
        · intro hf
          rw [hT1] at hf
          cases hf
  · by_cases hc : pos.2 = b.hole.2
    · -- same column
      have hshare : (pos.1 = b.hole.1 ∧ pos.2 ≠ b.hole.2) ∨
          (pos.2 = b.hole.2 ∧ pos.1 ≠ b.hole.1) := Or.inr ⟨hc, hr⟩
      obtain ⟨hT1, hH1⟩ := click_tile_moves b pos hshare
      obtain ⟨hT2, hH2⟩ := click_pos_moves b pos hshare
      rcases Nat.lt_or_ge pos.1 b.hole.1 with hlt | hge
      · have e1 := click_tile_tiles_col_lt b pos hc hr hlt
        have e2 := click_pos_tiles_col_lt b pos hc hr hlt
        refine ⟨by rw [hT1, hT2], by rw [hH1, hH2], ?_, ?_, ?_⟩
        · intro q hq
          rw [e1 q, e2 q, if_neg hq]
        · intro _
          refine ⟨by rw [e1 pos, if_pos rfl], ?_⟩
          rw [e2 pos, if_neg]
          rintro ⟨-, hlt2, -⟩
          omega
        · intro hf
          rw [hT1] at hf
          cases hf
      · have hgt : b.hole.1 < pos.1 := by omega
        have e1 := click_tile_tiles_col_gt b pos hc hr hgt
        have e2 := click_pos_tiles_col_gt b pos hc hr hgt
        refine ⟨by rw [hT1, hT2], by rw [hH1, hH2], ?_, ?_, ?_⟩
        · intro q hq
          rw [e1 q, e2 q, if_neg hq]
        · intro _
          refine ⟨by rw [e1 pos, if_pos rfl], ?_⟩
          rw [e2 pos, if_neg]
          rintro ⟨-, -, hlt2⟩
          omega
        · intro hf
          rw [hT1] at hf
          cases hf
    · -- no shared axis: both are no-ops
      have h1 := click_tile_no_move b pos (Or.inl ⟨hr, hc⟩)
      have h2 := click_pos_no_move b pos (Or.inl ⟨hr, hc⟩)
      rw [h1, h2]
      exact ⟨rfl, rfl, fun q _ => rfl, fun h => absurd h Bool.false_ne_true, fun _ => ⟨rfl, rfl⟩⟩

/-- Witness for the amended C9 at the row fixture, clicking `(2, 0)`. -/
theorem claim_C9_amended_click_pos_refines_click_tile_witness :
    (exRowBoard.click_tile (2, 0)).1 = (exRowBoard.click_pos (2, 0)).1 ∧
    (exRowBoard.click_tile (2, 0)).2.hole = (exRowBoard.click_pos (2, 0)).2.hole ∧
    (∀ q : Pos, q ≠ (2, 0) →
      (exRowBoard.click_tile (2, 0)).2.tiles q = (exRowBoard.click_pos (2, 0)).2.tiles q) ∧
    ((exRowBoard.click_tile (2, 0)).1 = true →
      (exRowBoard.click_tile (2, 0)).2.tiles (2, 0) = none ∧
      (exRowBoard.click_pos (2, 0)).2.tiles (2, 0) = exRowBoard.tiles (2, 0)) ∧
    ((exRowBoard.click_tile (2, 0)).1 = false →
      exRowBoard.click_tile (2, 0) = (false, exRowBoard) ∧
      exRowBoard.click_pos (2, 0) = (false, exRowBoard)) :=
  claim_C9_amended_click_pos_refines_click_tile exRowBoard (2, 0)

/-! ## Claim C4: generator and invariant machinery -/

/-- `boardCells` lists exactly the in-bounds cells. -/
theorem mem_boardCells {q : Pos} : q ∈ boardCells ↔ inBounds q := by
  rcases q with ⟨i, j⟩
  simp only [boardCells, List.mem_flatMap, List.mem_map, List.mem_range, inBounds,
    Prod.mk.injEq]
  constructor
  · rintro ⟨a, ha, b, hb, rfl, rfl⟩
    exact ⟨ha, hb⟩
  · rintro ⟨hi, hj⟩
    exact ⟨i, hi, j, hj, rfl, rfl⟩

/-- Cells never written by the placement fold keep their initial value. -/
theorem generate_foldl_miss (π : Equiv.Perm (Fin 24)) (q : Pos) :
    ∀ (l : List Pos) (st : Grid Color × Nat), (∀ p ∈ l, p = (2, 2) ∨ p ≠ q) →
      (l.foldl (generateStep π) st).1 q = st.1 q := by
  intro l
  induction l with
  | nil => intro st _; rfl
  | cons p l ih =>
    intro st h
    rw [List.foldl_cons, ih _ (fun p hp => h p (List.mem_cons_of_mem _ hp))]
    rcases h p (List.mem_cons_self p l) with rfl | hne
    · rw [generateStep, if_pos rfl]
    · unfold generateStep
      by_cases hp2 : p = (2, 2)
      · rw [if_pos hp2]
      · rw [if_neg hp2]
        exact Function.update_noteq (Ne.symm hne) _ _

/-- Closed form of the generated tiles: every in-bounds non-center cell `q`
holds the shuffled color of its placement rank; the center and everything
out of bounds is empty. -/
theorem generate_tiles_eq (π : Equiv.Perm (Fin 24)) (q : Pos) :
    (Board.generate π).tiles q =
      if inBounds q ∧ q ≠ (2, 2) then some (shuffledColor π (cellRank q)) else none := by
  rcases q with ⟨i, j⟩
  by_cases hb : i < 5 ∧ j < 5
  · obtain ⟨hi, hj⟩ := hb
    interval_cases i <;> interval_cases j <;> rfl
  · have hmiss : ∀ p ∈ boardCells, p = (2, 2) ∨ p ≠ ((i, j) : Pos) := by
      intro p hp
      refine Or.inr fun hpq => hb ?_
      have := mem_boardCells.mp hp
      rw [hpq] at this
      exact this
    rw [show (Board.generate π).tiles (i, j) =
        ((boardCells.foldl (generateStep π) (fun _ => none, 0)).1 (i, j)) from rfl,
      generate_foldl_miss π (i, j) boardCells _ hmiss, if_neg]
    rintro ⟨hq, -⟩
    exact hb hq

/-- Each color occurs exactly 4 times on a generated board, for every
shuffle. -/
theorem colorCount_generate (π : Equiv.Perm (Fin 24)) (c : Color) :
    colorCount (Board.generate π).tiles c = 4 := by
  have step1 : colorCount (Board.generate π).tiles c =
      ∑ q in (Finset.range 5 ×ˢ Finset.range 5).erase (2, 2),
        (if q = ((2, 2) : Pos) then 0 else if shuffledColor π (cellRank q) = c then 1 else 0) := by
    unfold colorCount
    rw [← Finset.sum_product']
    have step1a : ∑ q in Finset.range 5 ×ˢ Finset.range 5,
        (if (Board.generate π).tiles (q.1, q.2) = some c then 1 else 0) =
        ∑ q in Finset.range 5 ×ˢ Finset.range 5,
        (if q = ((2, 2) : Pos) then 0 else if shuffledColor π (cellRank q) = c then 1 else 0) := by
      refine Finset.sum_congr rfl fun q hq => ?_
      simp only [Finset.mem_product, Finset.mem_range] at hq
      by_cases hq2 : q = ((2, 2) : Pos)
      · subst hq2
        simp [generate_tiles_eq]
      · rw [if_neg hq2]
        have hmk : ((q.1, q.2) : Pos) = q := rfl
        have hcond : inBounds q ∧ q ≠ (2, 2) := ⟨⟨hq.1, hq.2⟩, hq2⟩
        rw [hmk, generate_tiles_eq, if_pos hcond]
        simp only [Option.some.injEq]
    rw [step1a]
    have hz : (if ((2, 2) : Pos) = ((2, 2) : Pos) then 0
        else if shuffledColor π (cellRank ((2, 2) : Pos)) = c then 1 else 0) = 0 := by simp
    rw [← Finset.sum_erase (Finset.range 5 ×ˢ Finset.range 5) hz]
  have step1b : ∑ q in (Finset.range 5 ×ˢ Finset.range 5).erase (2, 2),
        (if q = ((2, 2) : Pos) then 0 else if shuffledColor π (cellRank q) = c then 1 else 0) =
      ∑ q in (Finset.range 5 ×ˢ Finset.range 5).erase (2, 2),
        (if shuffledColor π (cellRank q) = c then 1 else 0) := by
    refine Finset.sum_congr rfl fun q hq => ?_
    rw [Finset.mem_erase] at hq
    rw [if_neg hq.1]
  have step2 : ∑ q in (Finset.range 5 ×ˢ Finset.range 5).erase (2, 2),
        (if shuffledColor π (cellRank q) = c then 1 else 0) =
      ∑ t in Finset.range 24, (if shuffledColor π t = c then 1 else 0) := by
    refine Finset.sum_nbij' cellRank cellUnrank ?_ ?_ ?_ ?_ fun q hq => rfl
    · rintro ⟨i, j⟩ hq
      simp only [Finset.mem_erase, Finset.mem_product, Finset.mem_range] at hq
      have h2 : i ≠ 2 ∨ j ≠ 2 := by
        rcases Decidable.em (i = 2) with rfl | h
        · exact Or.inr fun hj => hq.1 (by rw [hj])
        · exact Or.inl h
      rw [Finset.mem_range]
      simp only [cellRank]
      split_ifs <;> omega
    · intro t ht
      rw [Finset.mem_range] at ht
      rw [Finset.mem_erase, Finset.mem_product, Finset.mem_range, Finset.mem_range]
      refine ⟨fun h1 => ?_, ?_, ?_⟩
      · simp only [cellUnrank, Prod.mk.injEq] at h1
        split_ifs at h1 <;> omega
      · simp only [cellUnrank]
        split_ifs <;> omega
      · simp only [cellUnrank]
        split_ifs <;> omega
    · rintro ⟨i, j⟩ hq
      simp only [Finset.mem_erase, Finset.mem_product, Finset.mem_range] at hq
      have h2 : i ≠ 2 ∨ j ≠ 2 := by
        rcases Decidable.em (i = 2) with rfl | h
        · exact Or.inr fun hj => hq.1 (by rw [hj])
        · exact Or.inl h
      simp only [cellRank, cellUnrank, Prod.mk.injEq]
      split_ifs <;> constructor <;> omega
    · intro t ht
      rw [Finset.mem_range] at ht
      simp only [cellRank, cellUnrank]
      split_ifs <;> omega
  have step3 : ∑ t in Finset.range 24, (if shuffledColor π t = c then 1 else 0) = 4 := by
    rw [← Fin.sum_univ_eq_sum_range]
    have he : ∀ x : Fin 24, shuffledColor π x.val = colorOfFin24 (π x) := by
      intro x
      unfold shuffledColor
      rw [dif_pos x.isLt]
    simp only [he]
    rw [Equiv.sum_comp π (fun y => if colorOfFin24 y = c then 1 else 0)]
    fin_cases c <;> decide
  rw [step1, step1b, step2, step3]

/-- Summing a one-step backward rotation over an interval: if `g` takes `f`'s
value one step to the left on `Ioc a b` and wraps `g a = f b`, the sums
agree. -/
theorem sum_rot_Icc (a b : Nat) (hab : a ≤ b) (f g : Nat → Nat)
    (h0 : g a = f b) (h1 : ∀ j, a < j → j ≤ b → g j = f (j - 1)) :
    ∑ j in Finset.Icc a b, g j = ∑ j in Finset.Icc a b, f j := by
  refine Finset.sum_nbij' (fun j => if j = a then b else j - 1)
    (fun j => if j = b then a else j + 1) ?_ ?_ ?_ ?_ ?_
  · intro j hj
    rw [Finset.mem_Icc] at hj ⊢
    dsimp only
    split_ifs <;> omega
  · intro j hj
    rw [Finset.mem_Icc] at hj ⊢
    dsimp only
    split_ifs <;> omega
  · intro j hj
    rw [Finset.mem_Icc] at hj
    dsimp only
    split_ifs <;> omega
  · intro j hj
    rw [Finset.mem_Icc] at hj
    dsimp only
    split_ifs <;> omega
  · intro j hj
    rw [Finset.mem_Icc] at hj
    dsimp only
    by_cases hja : j = a
    · subst hja
      rw [if_pos rfl]
      exact h0
    · rw [if_neg hja]
      exact h1 j (by omega) hj.2

/-- Summing a one-step forward rotation over an interval: if `g` takes `f`'s
value one step to the right on `Ico a b` and wraps `g b = f a`, the sums
agree. -/
theorem sum_rot_Icc_rev (a b : Nat) (hab : a ≤ b) (f g : Nat → Nat)
    (h0 : g b = f a) (h1 : ∀ j, a ≤ j → j < b → g j = f (j + 1)) :
    ∑ j in Finset.Icc a b, g j = ∑ j in Finset.Icc a b, f j := by
  refine Finset.sum_nbij' (fun j => if j = b then a else j + 1)
    (fun j => if j = a then b else j - 1) ?_ ?_ ?_ ?_ ?_
  · intro j hj
    rw [Finset.mem_Icc] at hj ⊢
    dsimp only
    split_ifs <;> omega
  · intro j hj
    rw [Finset.mem_Icc] at hj ⊢
    dsimp only
    split_ifs <;> omega
  · intro j hj
    rw [Finset.mem_Icc] at hj
    dsimp only
    split_ifs <;> omega
  · intro j hj
    rw [Finset.mem_Icc] at hj
    dsimp only
    split_ifs <;> omega
  · intro j hj
    rw [Finset.mem_Icc] at hj
    dsimp only
    by_cases hjb : j = b
    · subst hjb
      rw [if_pos rfl]
      exact h0
    · rw [if_neg hjb]
      exact h1 j hj.1 (by omega)

/-- Component form of `click_tile_tiles_row_lt`. -/
theorem click_tile_cell_row_lt (b : Board Color) (pos : Pos) (hr : pos.1 = b.hole.1)
    (hlt : pos.2 < b.hole.2) (i j : Nat) :
    (b.click_tile pos).2.tiles (i, j) =
      if i = pos.1 ∧ j = pos.2 then none
      else if i = pos.1 ∧ pos.2 < j ∧ j ≤ b.hole.2 then b.tiles (pos.1, j - 1)
      else b.tiles (i, j) := by
  rcases pos with ⟨p1, p2⟩
  rw [click_tile_tiles_row_lt b (p1, p2) hr hlt (i, j)]
  simp only [Prod.mk.injEq]

/-- Component form of `click_tile_tiles_row_gt`. -/
theorem click_tile_cell_row_gt (b : Board Color) (pos : Pos) (hr : pos.1 = b.hole.1)
    (hgt : b.hole.2 < pos.2) (i j : Nat) :
    (b.click_tile pos).2.tiles (i, j) =
      if i = pos.1 ∧ j = pos.2 then none
      else if i = pos.1 ∧ b.hole.2 ≤ j ∧ j < pos.2 then b.tiles (pos.1, j + 1)
      else b.tiles (i, j) := by
  rcases pos with ⟨p1, p2⟩
  rw [click_tile_tiles_row_gt b (p1, p2) hr hgt (i, j)]
  simp only [Prod.mk.injEq]

/-- Component form of `click_tile_tiles_col_lt`. -/
theorem click_tile_cell_col_lt (b : Board Color) (pos : Pos) (hc : pos.2 = b.hole.2)
    (hne : pos.1 ≠ b.hole.1) (hlt : pos.1 < b.hole.1) (i j : Nat) :
    (b.click_tile pos).2.tiles (i, j) =
      if i = pos.1 ∧ j = pos.2 then none
      else if j = pos.2 ∧ pos.1 < i ∧ i ≤ b.hole.1 then b.tiles (i - 1, pos.2)
      else b.tiles (i, j) := by
  rcases pos with ⟨p1, p2⟩
  rw [click_tile_tiles_col_lt b (p1, p2) hc hne hlt (i, j)]
  simp only [Prod.mk.injEq]

/-- Component form of `click_tile_tiles_col_gt`. -/
theorem click_tile_cell_col_gt (b : Board Color) (pos : Pos) (hc : pos.2 = b.hole.2)
    (hne : pos.1 ≠ b.hole.1) (hgt : b.hole.1 < pos.1) (i j : Nat) :
    (b.click_tile pos).2.tiles (i, j) =
      if i = pos.1 ∧ j = pos.2 then none
      else if j = pos.2 ∧ b.hole.1 ≤ i ∧ i < pos.1 then b.tiles (i + 1, pos.2)
      else b.tiles (i, j) := by
  rcases pos with ⟨p1, p2⟩
  rw [click_tile_tiles_col_gt b (p1, p2) hc hne hgt (i, j)]
  simp only [Prod.mk.injEq]

/-- `click_tile` preserves every per-color count (for any click position),
provided the hole invariant holds. -/
theorem colorCount_click_tile (b : Board Color) (pos : Pos)
    (hhole : inBounds b.hole) (hpos : inBounds pos) (hnone : b.tiles b.hole = none)
    (c : Color) :
    colorCount (b.click_tile pos).2.tiles c = colorCount b.tiles c := by
  obtain ⟨hh1, hh2⟩ := hhole
  obtain ⟨hp1, hp2⟩ : pos.1 < 5 ∧ pos.2 < 5 := hpos
  by_cases hr : pos.1 = b.hole.1
  · by_cases hc : pos.2 = b.hole.2
    · rw [click_tile_no_move b pos (Or.inr (Prod.ext hr hc))]
    · rcases Nat.lt_or_ge pos.2 b.hole.2 with hlt | hge
      · -- same row, click left of the hole
        have e := click_tile_cell_row_lt b pos hr hlt
        unfold colorCount
        refine Finset.sum_congr rfl fun i hi => ?_
        by_cases hip : i = pos.1
        · subst hip
          rw [← Finset.sum_filter_add_sum_filter_not (Finset.range 5)
              (fun j => pos.2 ≤ j ∧ j ≤ b.hole.2)
              (fun j => if (b.click_tile pos).2.tiles (pos.1, j) = some c then 1 else 0),
            ← Finset.sum_filter_add_sum_filter_not (Finset.range 5)
              (fun j => pos.2 ≤ j ∧ j ≤ b.hole.2)
              (fun j => if b.tiles (pos.1, j) = some c then 1 else 0)]
          have hfil : (Finset.range 5).filter (fun j => pos.2 ≤ j ∧ j ≤ b.hole.2) =
              Finset.Icc pos.2 b.hole.2 := by
            ext j
            simp only [Finset.mem_filter, Finset.mem_range, Finset.mem_Icc]
            omega
          congr 1
          · rw [hfil]
            refine sum_rot_Icc pos.2 b.hole.2 (Nat.le_of_lt hlt) _ _ ?_ ?_
            · have h1 : (b.click_tile pos).2.tiles (pos.1, pos.2) = none := by
                rw [e pos.1 pos.2,
                  if_pos (show pos.1 = pos.1 ∧ pos.2 = pos.2 from ⟨rfl, rfl⟩)]
              have h2 : b.tiles (pos.1, b.hole.2) = none := by
                rw [show ((pos.1, b.hole.2) : Pos) = b.hole from Prod.ext hr rfl]
                exact hnone
              rw [h1, h2]
            · intro j hj1 hj2
              have hcell : (b.click_tile pos).2.tiles (pos.1, j) = b.tiles (pos.1, j - 1) := by
                rw [e pos.1 j,
                  if_neg (show ¬ (pos.1 = pos.1 ∧ j = pos.2) by rintro ⟨-, h⟩; omega),
                  if_pos (show pos.1 = pos.1 ∧ pos.2 < j ∧ j ≤ b.hole.2 from ⟨rfl, hj1, hj2⟩)]
              rw [hcell]
          · refine Finset.sum_congr rfl fun j hj => ?_
            simp only [Finset.mem_filter, Finset.mem_range] at hj
            have hj2 : ¬ (pos.2 ≤ j ∧ j ≤ b.hole.2) := hj.2
            rw [e pos.1 j,
              if_neg (show ¬ (pos.1 = pos.1 ∧ j = pos.2) by rintro ⟨-, h⟩; omega),
              if_neg (show ¬ (pos.1 = pos.1 ∧ pos.2 < j ∧ j ≤ b.hole.2) by
                rintro ⟨-, h1, h2⟩; omega)]
        · refine Finset.sum_congr rfl fun j hj => ?_
          rw [e i j,
            if_neg (show ¬ (i = pos.1 ∧ j = pos.2) by rintro ⟨h1, -⟩; exact hip h1),
            if_neg (show ¬ (i = pos.1 ∧ pos.2 < j ∧ j ≤ b.hole.2) by
              rintro ⟨h1, -⟩; exact hip h1)]
      · -- same row, click right of the hole
        have hgt : b.hole.2 < pos.2 := by omega
        have e := click_tile_cell_row_gt b pos hr hgt
        unfold colorCount
        refine Finset.sum_congr rfl fun i hi => ?_
        by_cases hip : i = pos.1
        · subst hip
          rw [← Finset.sum_filter_add_sum_filter_not (Finset.range 5)
              (fun j => b.hole.2 ≤ j ∧ j ≤ pos.2)
              (fun j => if (b.click_tile pos).2.tiles (pos.1, j) = some c then 1 else 0),
            ← Finset.sum_filter_add_sum_filter_not (Finset.range 5)
              (fun j => b.hole.2 ≤ j ∧ j ≤ pos.2)
              (fun j => if b.tiles (pos.1, j) = some c then 1 else 0)]
          have hfil : (Finset.range 5).filter (fun j => b.hole.2 ≤ j ∧ j ≤ pos.2) =
              Finset.Icc b.hole.2 pos.2 := by
            ext j
            simp only [Finset.mem_filter, Finset.mem_range, Finset.mem_Icc]
            omega
          congr 1
          · rw [hfil]
            refine sum_rot_Icc_rev b.hole.2 pos.2 (Nat.le_of_lt hgt) _ _ ?_ ?_
            · have h1 : (b.click_tile pos).2.tiles (pos.1, pos.2) = none := by
                rw [e pos.1 pos.2,
                  if_pos (show pos.1 = pos.1 ∧ pos.2 = pos.2 from ⟨rfl, rfl⟩)]
              have h2 : b.tiles (pos.1, b.hole.2) = none := by
                rw [show ((pos.1, b.hole.2) : Pos) = b.hole from Prod.ext hr rfl]
                exact hnone
              rw [h1, h2]
            · intro j hj1 hj2
              have hcell : (b.click_tile pos).2.tiles (pos.1, j) = b.tiles (pos.1, j + 1) := by
                rw [e pos.1 j,
                  if_neg (show ¬ (pos.1 = pos.1 ∧ j = pos.2) by rintro ⟨-, h⟩; omega),
                  if_pos (show pos.1 = pos.1 ∧ b.hole.2 ≤ j ∧ j < pos.2 from ⟨rfl, hj1, hj2⟩)]
              rw [hcell]
          · refine Finset.sum_congr rfl fun j hj => ?_
            simp only [Finset.mem_filter, Finset.mem_range] at hj
            have hj2 : ¬ (b.hole.2 ≤ j ∧ j ≤ pos.2) := hj.2
            rw [e pos.1 j,
              if_neg (show ¬ (pos.1 = pos.1 ∧ j = pos.2) by rintro ⟨-, h⟩; omega),
              if_neg (show ¬ (pos.1 = pos.1 ∧ b.hole.2 ≤ j ∧ j < pos.2) by
                rintro ⟨-, h1, h2⟩; omega)]
        · refine Finset.sum_congr rfl fun j hj => ?_
          rw [e i j,
            if_neg (show ¬ (i = pos.1 ∧ j = pos.2) by rintro ⟨h1, -⟩; exact hip h1),
            if_neg (show ¬ (i = pos.1 ∧ b.hole.2 ≤ j ∧ j < pos.2) by
              rintro ⟨h1, -⟩; exact hip h1)]
  · by_cases hc : pos.2 = b.hole.2
    · rcases Nat.lt_or_ge pos.1 b.hole.1 with hlt | hge
      · -- same column, click above the hole
        have e := click_tile_cell_col_lt b pos hc hr hlt
        unfold colorCount
        rw [Finset.sum_comm, Finset.sum_comm (s := Finset.range 5) (t := Finset.range 5)
          (f := fun i j => if b.tiles (i, j) = some c then 1 else 0)]
        refine Finset.sum_congr rfl fun j hj => ?_
        by_cases hjp : j = pos.2
        · subst hjp
          rw [← Finset.sum_filter_add_sum_filter_not (Finset.range 5)
              (fun i => pos.1 ≤ i ∧ i ≤ b.hole.1)
              (fun i => if (b.click_tile pos).2.tiles (i, pos.2) = some c then 1 else 0),
            ← Finset.sum_filter_add_sum_filter_not (Finset.range 5)
              (fun i => pos.1 ≤ i ∧ i ≤ b.hole.1)
              (fun i => if b.tiles (i, pos.2) = some c then 1 else 0)]
          have hfil : (Finset.range 5).filter (fun i => pos.1 ≤ i ∧ i ≤ b.hole.1) =
              Finset.Icc pos.1 b.hole.1 := by
            ext i
            simp only [Finset.mem_filter, Finset.mem_range, Finset.mem_Icc]
            omega
          congr 1
          · rw [hfil]
            refine sum_rot_Icc pos.1 b.hole.1 (Nat.le_of_lt hlt) _ _ ?_ ?_
            · have h1 : (b.click_tile pos).2.tiles (pos.1, pos.2) = none := by
                rw [e pos.1 pos.2,
                  if_pos (show pos.1 = pos.1 ∧ pos.2 = pos.2 from ⟨rfl, rfl⟩)]
              have h2 : b.tiles (b.hole.1, pos.2) = none := by
                rw [show ((b.hole.1, pos.2) : Pos) = b.hole from Prod.ext rfl hc]
                exact hnone
              rw [h1, h2]
            · intro i hi1 hi2
              have hcell : (b.click_tile pos).2.tiles (i, pos.2) = b.tiles (i - 1, pos.2) := by
                rw [e i pos.2,
                  if_neg (show ¬ (i = pos.1 ∧ pos.2 = pos.2) by rintro ⟨h, -⟩; omega),
                  if_pos (show pos.2 = pos.2 ∧ pos.1 < i ∧ i ≤ b.hole.1 from ⟨rfl, hi1, hi2⟩)]
              rw [hcell]
          · refine Finset.sum_congr rfl fun i hi => ?_
            simp only [Finset.mem_filter, Finset.mem_range] at hi
            have hi2 : ¬ (pos.1 ≤ i ∧ i ≤ b.hole.1) := hi.2
            rw [e i pos.2,
              if_neg (show ¬ (i = pos.1 ∧ pos.2 = pos.2) by rintro ⟨h, -⟩; omega),
              if_neg (show ¬ (pos.2 = pos.2 ∧ pos.1 < i ∧ i ≤ b.hole.1) by
                rintro ⟨-, h1, h2⟩; omega)]
        · refine Finset.sum_congr rfl fun i hi => ?_
          rw [e i j,
            if_neg (show ¬ (i = pos.1 ∧ j = pos.2) by rintro ⟨-, h1⟩; exact hjp h1),
            if_neg (show ¬ (j = pos.2 ∧ pos.1 < i ∧ i ≤ b.hole.1) by
              rintro ⟨h1, -⟩; exact hjp h1)]
      · -- same column, click below the hole
        have hgt : b.hole.1 < pos.1 := by omega
        have e := click_tile_cell_col_gt b pos hc hr hgt
        unfold colorCount
        rw [Finset.sum_comm, Finset.sum_comm (s := Finset.range 5) (t := Finset.range 5)
          (f := fun i j => if b.tiles (i, j) = some c then 1 else 0)]
        refine Finset.sum_congr rfl fun j hj => ?_
        by_cases hjp : j = pos.2
        · subst hjp
          rw [← Finset.sum_filter_add_sum_filter_not (Finset.range 5)
              (fun i => b.hole.1 ≤ i ∧ i ≤ pos.1)
              (fun i => if (b.click_tile pos).2.tiles (i, pos.2) = some c then 1 else 0),
            ← Finset.sum_filter_add_sum_filter_not (Finset.range 5)
              (fun i => b.hole.1 ≤ i ∧ i ≤ pos.1)
              (fun i => if b.tiles (i, pos.2) = some c then 1 else 0)]
          have hfil : (Finset.range 5).filter (fun i => b.hole.1 ≤ i ∧ i ≤ pos.1) =
              Finset.Icc b.hole.1 pos.1 := by
            ext i
            simp only [Finset.mem_filter, Finset.mem_range, Finset.mem_Icc]
            omega
          congr 1
          · rw [hfil]
            refine sum_rot_Icc_rev b.hole.1 pos.1 (Nat.le_of_lt hgt) _ _ ?_ ?_
            · have h1 : (b.click_tile pos).2.tiles (pos.1, pos.2) = none := by
                rw [e pos.1 pos.2,
                  if_pos (show pos.1 = pos.1 ∧ pos.2 = pos.2 from ⟨rfl, rfl⟩)]
              have h2 : b.tiles (b.hole.1, pos.2) = none := by
                rw [show ((b.hole.1, pos.2) : Pos) = b.hole from Prod.ext rfl hc]
                exact hnone
              rw [h1, h2]
            · intro i hi1 hi2
              have hcell : (b.click_tile pos).2.tiles (i, pos.2) = b.tiles (i + 1, pos.2) := by
                rw [e i pos.2,
                  if_neg (show ¬ (i = pos.1 ∧ pos.2 = pos.2) by rintro ⟨h, -⟩; omega),
                  if_pos (show pos.2 = pos.2 ∧ b.hole.1 ≤ i ∧ i < pos.1 from ⟨rfl, hi1, hi2⟩)]
              rw [hcell]
          · refine Finset.sum_congr rfl fun i hi => ?_
            simp only [Finset.mem_filter, Finset.mem_range] at hi
            have hi2 : ¬ (b.hole.1 ≤ i ∧ i ≤ pos.1) := hi.2
            rw [e i pos.2,
              if_neg (show ¬ (i = pos.1 ∧ pos.2 = pos.2) by rintro ⟨h, -⟩; omega),
              if_neg (show ¬ (pos.2 = pos.2 ∧ b.hole.1 ≤ i ∧ i < pos.1) by
                rintro ⟨-, h1, h2⟩; omega)]
        · refine Finset.sum_congr rfl fun i hi => ?_
          rw [e i j,
            if_neg (show ¬ (i = pos.1 ∧ j = pos.2) by rintro ⟨-, h1⟩; exact hjp h1),
            if_neg (show ¬ (j = pos.2 ∧ b.hole.1 ≤ i ∧ i < pos.1) by
              rintro ⟨h1, -⟩; exact hjp h1)]
    · rw [click_tile_no_move b pos (Or.inl ⟨hr, hc⟩)]

/-- `click_tile` with an in-bounds click preserves the full board
invariant. -/
theorem boardInvariant_click_tile (b : Board Color) (pos : Pos)
    (hinv : boardInvariant b) (hpos : inBounds pos) :
    boardInvariant (b.click_tile pos).2 := by
  obtain ⟨hh, hn, hsome, hcount⟩ := hinv
  have hpos' : pos.1 < 5 ∧ pos.2 < 5 := hpos
  have hh' : b.hole.1 < 5 ∧ b.hole.2 < 5 := hh
  obtain ⟨hp1, hp2⟩ := hpos'
  obtain ⟨hh1, hh2⟩ := hh'
  by_cases hr : pos.1 = b.hole.1
  · by_cases hc : pos.2 = b.hole.2
    · rw [click_tile_no_move b pos (Or.inr (Prod.ext hr hc))]
      exact ⟨hh, hn, hsome, hcount⟩
    · obtain ⟨hT, hH⟩ := click_tile_moves b pos (Or.inl ⟨hr, hc⟩)
      rcases Nat.lt_or_ge pos.2 b.hole.2 with hlt | hge
      · -- same row, click left
        have e := click_tile_cell_row_lt b pos hr hlt
        refine ⟨?_, ?_, ?_, fun c => (colorCount_click_tile b pos hh hpos hn c).trans (hcount c)⟩
        · rw [hH]
          exact hpos
        · rw [hH]
          rcases pos with ⟨p1, p2⟩
          rw [e p1 p2, if_pos ⟨rfl, rfl⟩]
        · intro i hi j hj hne
          rw [hH] at hne
          rw [e i j]
          split_ifs with h1 h2
          · exact absurd (Prod.ext h1.1 h1.2) hne
          · refine hsome pos.1 hp1 (j - 1) (by omega) fun heq => ?_
            have e1 := congrArg Prod.fst heq
            have e2 := congrArg Prod.snd heq
            dsimp at e1 e2
            omega
          · refine hsome i hi j hj fun heq => ?_
            have e1 := congrArg Prod.fst heq
            have e2 := congrArg Prod.snd heq
            dsimp at e1 e2
            exact h2 ⟨by omega, by omega, by omega⟩
      · -- same row, click right
        have hgt : b.hole.2 < pos.2 := by omega
        have e := click_tile_cell_row_gt b pos hr hgt
        refine ⟨?_, ?_, ?_, fun c => (colorCount_click_tile b pos hh hpos hn c).trans (hcount c)⟩
        · rw [hH]
          exact hpos
        · rw [hH]
          rcases pos with ⟨p1, p2⟩
          rw [e p1 p2, if_pos ⟨rfl, rfl⟩]
        · intro i hi j hj hne
          rw [hH] at hne
          rw [e i j]
          split_ifs with h1 h2
          · exact absurd (Prod.ext h1.1 h1.2) hne
          · refine hsome pos.1 hp1 (j + 1) (by omega) fun heq => ?_
            have e1 := congrArg Prod.fst heq
            have e2 := congrArg Prod.snd heq
            dsimp at e1 e2
            omega
          · refine hsome i hi j hj fun heq => ?_
            have e1 := congrArg Prod.fst heq
            have e2 := congrArg Prod.snd heq
            dsimp at e1 e2
            exact h2 ⟨by omega, by omega, by omega⟩
  · by_cases hc : pos.2 = b.hole.2
    · obtain ⟨hT, hH⟩ := click_tile_moves b pos (Or.inr ⟨hc, hr⟩)
      rcases Nat.lt_or_ge pos.1 b.hole.1 with hlt | hge
      · -- same column, click above
        have e := click_tile_cell_col_lt b pos hc hr hlt
        refine ⟨?_, ?_, ?_, fun c => (colorCount_click_tile b pos hh hpos hn c).trans (hcount c)⟩
        · rw [hH]
          exact hpos
        · rw [hH]
          rcases pos with ⟨p1, p2⟩
          rw [e p1 p2, if_pos ⟨rfl, rfl⟩]
        · intro i hi j hj hne
          rw [hH] at hne
          rw [e i j]
          split_ifs with h1 h2
          · exact absurd (Prod.ext h1.1 h1.2) hne
          · refine hsome (i - 1) (by omega) pos.2 hp2 fun heq => ?_
            have e1 := congrArg Prod.fst heq
            have e2 := congrArg Prod.snd heq
            dsimp at e1 e2
            omega
          · refine hsome i hi j hj fun heq => ?_
            have e1 := congrArg Prod.fst heq
            have e2 := congrArg Prod.snd heq
            dsimp at e1 e2
            exact h2 ⟨by omega, by omega, by omega⟩
      · -- same column, click below
        have hgt : b.hole.1 < pos.1 := by omega
        have e := click_tile_cell_col_gt b pos hc hr hgt
        refine ⟨?_, ?_, ?_, fun c => (colorCount_click_tile b pos hh hpos hn c).trans (hcount c)⟩
        · rw [hH]
          exact hpos
        · rw [hH]
          rcases pos with ⟨p1, p2⟩
          rw [e p1 p2, if_pos ⟨rfl, rfl⟩]
        · intro i hi j hj hne
          rw [hH] at hne
          rw [e i j]
          split_ifs with h1 h2
          · exact absurd (Prod.ext h1.1 h1.2) hne
          · refine hsome (i + 1) (by omega) pos.2 hp2 fun heq => ?_
            have e1 := congrArg Prod.fst heq
            have e2 := congrArg Prod.snd heq
            dsimp at e1 e2
            omega
          · refine hsome i hi j hj fun heq => ?_
            have e1 := congrArg Prod.fst heq
            have e2 := congrArg Prod.snd heq
            dsimp at e1 e2
            exact h2 ⟨by omega, by omega, by omega⟩
    · rw [click_tile_no_move b pos (Or.inl ⟨hr, hc⟩)]
      exact ⟨hh, hn, hsome, hcount⟩

/-- C4: the board invariant — exactly one empty cell located at the `hole`
coordinate, 24 occupied cells, exactly 4 of each of the 6 colors — is
established by `Board::generate` (whose hole is the center `(2, 2)`) for
every shuffle, and preserved by every `click_tile` call with an in-bounds
position. -/
theorem claim_C4_board_invariant :
    (∀ π : Equiv.Perm (Fin 24),
      boardInvariant (Board.generate π) ∧ (Board.generate π).hole = (2, 2)) ∧
    (∀ (b : Board Color) (pos : Pos), boardInvariant b → inBounds pos →
      boardInvariant (b.click_tile pos).2) := by
  constructor
  · intro π
    refine ⟨⟨?_, ?_, ?_, colorCount_generate π⟩, rfl⟩
    · exact (⟨by omega, by omega⟩ : inBounds ((2, 2) : Pos))
    · rw [show (Board.generate π).hole = ((2, 2) : Pos) from rfl, generate_tiles_eq,
        if_neg (show ¬ (inBounds ((2, 2) : Pos) ∧ ((2, 2) : Pos) ≠ (2, 2)) from
          fun h => h.2 rfl)]
    · intro i hi j hj hne
      have hne2 : ((i, j) : Pos) ≠ (2, 2) := hne
      rw [generate_tiles_eq,
        if_pos (show inBounds ((i, j) : Pos) ∧ ((i, j) : Pos) ≠ (2, 2) from ⟨⟨hi, hj⟩, hne2⟩)]
      rfl
  · exact fun b pos h1 h2 => boardInvariant_click_tile b pos h1 h2

/-- Witness for C4: the identity shuffle and a click at `(2, 0)`. -/
theorem claim_C4_board_invariant_witness :
    boardInvariant (Board.generate (Equiv.refl (Fin 24))) ∧
    (Board.generate (Equiv.refl (Fin 24))).hole = (2, 2) ∧
    inBounds ((2, 0) : Pos) ∧
    boardInvariant ((Board.generate (Equiv.refl (Fin 24))).click_tile (2, 0)).2 :=
  ⟨(claim_C4_board_invariant.1 (Equiv.refl (Fin 24))).1,
   (claim_C4_board_invariant.1 (Equiv.refl (Fin 24))).2,
   by decide,
   claim_C4_board_invariant.2 (Board.generate (Equiv.refl (Fin 24))) (2, 0)
     (claim_C4_board_invariant.1 (Equiv.refl (Fin 24))).1 (by decide)⟩

/-! ## Claims C5 and C6: the session coordinator -/

/-- C5: an out-of-bounds `Click`, or an in-bounds one whose `click_tile`
returns `false`, breaks the event loop: the iteration sends nothing and the
remaining queued events are never processed. -/
theorem claim_C5_bad_click_terminates_session (target : Target)
    (boards : Fin 2 → Board Color) (id : Fin 2) (pos : Pos) (rest : List GameEvent) :
    ((5 ≤ pos.1 ∨ 5 ≤ pos.2) →
      game_step target boards (.message id (.click pos)) = .stop [] ∧
      game_run target boards (.message id (.click pos) :: rest) = []) ∧
    (pos.1 < 5 → pos.2 < 5 → ((boards id).click_tile pos).1 = false →
      game_step target boards (.message id (.click pos)) = .stop [] ∧
      game_run target boards (.message id (.click pos) :: rest) = []) := by
  constructor
  · intro h
    have hs : game_step target boards (.message id (.click pos)) = .stop [] := by
      simp only [game_step]
      rw [if_pos h]
    exact ⟨hs, by rw [game_run, hs]⟩
  · intro h1 h2 hf
    have hB : ¬ (5 ≤ pos.1 ∨ 5 ≤ pos.2) := by omega
    have hs : game_step target boards (.message id (.click pos)) = .stop [] := by
      simp only [game_step]
      rw [if_neg hB]
      simp [hf]
    exact ⟨hs, by rw [game_run, hs]⟩

/-- Witness for C5: an out-of-bounds click at `(9, 0)` and a no-op click at
the hole `(2, 2)`, each with another event still queued. -/
theorem claim_C5_bad_click_terminates_session_witness :
    game_run exWhiteTarget (fun _ => exRowBoard)
      [.message 0 (.click (9, 0)), .message 0 (.click (2, 0))] = [] ∧
    game_run exWhiteTarget (fun _ => exRowBoard)
      [.message 0 (.click (2, 2)), .message 0 (.click (2, 0))] = [] :=
  ⟨((claim_C5_bad_click_terminates_session exWhiteTarget (fun _ => exRowBoard) 0 (9, 0)
      [.message 0 (.click (2, 0))]).1 (by omega)).2,
   ((claim_C5_bad_click_terminates_session exWhiteTarget (fun _ => exRowBoard) 0 (2, 2)
      [.message 0 (.click (2, 0))]).2 (by omega) (by omega) (by decide)).2⟩

/-- C6: a `Click` whose successful slide makes the mover's own board match
the target sends `OpponentClick{pos}` to the other player, then
`GameEnd{is_win: true}` to the mover and `GameEnd{is_win: false}` to the
other player, and terminates: queued events are never processed.  The
outcome does not depend on the opponent's board (`boards2` may differ from
`boards` anywhere except at the mover's slot). -/
theorem claim_C6_winning_click_ends_session (target : Target)
    (boards boards2 : Fin 2 → Board Color) (id : Fin 2) (pos : Pos)
    (rest : List GameEvent) (hin1 : pos.1 < 5) (hin2 : pos.2 < 5)
    (hupd : ((boards id).click_tile pos).1 = true)
    (hwin : (((boards id).click_tile pos).2).matches_target target = true)
    (hagree : boards2 id = boards id) :
    game_step target boards2 (.message id (.click pos)) =
      .stop [(1 - id, .opponentClick pos), (id, .gameEnd true), (1 - id, .gameEnd false)] ∧
    game_run target boards2 (.message id (.click pos) :: rest) =
      [(1 - id, .opponentClick pos), (id, .gameEnd true), (1 - id, .gameEnd false)] := by
  have hB : ¬ (5 ≤ pos.1 ∨ 5 ≤ pos.2) := by omega
  have hs : game_step target boards2 (.message id (.click pos)) =
      .stop [(1 - id, .opponentClick pos), (id, .gameEnd true), (1 - id, .gameEnd false)] := by
    simp only [game_step]
    rw [if_neg hB]
    simp [hagree, hupd, hwin]
  exact ⟨hs, by rw [game_run, hs]⟩

/-- Witness for C6: on the all-white board, player 0 clicks `(0, 1)` and
wins; the queued disconnect event is never processed. -/
theorem claim_C6_winning_click_ends_session_witness :
    (((fun _ : Fin 2 => exWhiteBoard) (0 : Fin 2)).click_tile (0, 1)).1 = true ∧
    ((((fun _ : Fin 2 => exWhiteBoard) (0 : Fin 2)).click_tile (0, 1)).2).matches_target
      exWhiteTarget = true ∧
    game_run exWhiteTarget (fun _ => exWhiteBoard)
      [.message 0 (.click (0, 1)), .disconnected 1] =
      [(1 - 0, .opponentClick (0, 1)), (0, .gameEnd true), (1 - 0, .gameEnd false)] :=
  ⟨by decide, by decide,
   (claim_C6_winning_click_ends_session exWhiteTarget (fun _ => exWhiteBoard)
     (fun _ => exWhiteBoard) 0 (0, 1) [.disconnected 1] (by omega) (by omega)
     (by decide) (by decide) rfl).2⟩

/-! ## Claim C7: the Ping message -/

/-- C7: the client message set includes a no-payload `Ping`, and the session
coordinator's event loop consumes a `Ping{playerId}` event with no state
change — no board mutation, no message sent, no termination — continuing
with the remaining events. -/
theorem claim_C7_ping_is_consumed_silently (target : Target)
    (boards : Fin 2 → Board Color) (id : Fin 2) (rest : List GameEvent) :
    game_step target boards (.message id .ping) = .cont boards [] ∧
    game_run target boards (.message id .ping :: rest) = game_run target boards rest :=
  ⟨rfl, rfl⟩

/-! ## Claim C8: client transport and decode failures -/

/-- C8 counterexample: an inbound frame that fails to decode does **not**
put the state machine into `ConnectionError` — the receive loop panics (the
`expect("failed to deserialize")`), modelled by `none`. -/
theorem claim_C8_counterexample :
    recv_step exPlayingSession (.frame (some (.bytes none))) = none := rfl

/-- C8 (amended): every transport failure enters the terminal
`ConnectionError` state and triggers the shutdown signal — a failed send, a
receive error, and an unexpected (non-binary) frame alike; but an inbound
frame that fails to decode into a `ServerMessage` panics instead of entering
`ConnectionError`. -/
theorem claim_C8_amended_transport_failure_enters_connection_error (s : ClientSession) :
    send_msg s false = ({ s with state := .connectionError }, true) ∧
    recv_step s (.frame (some .recvError)) =
      some ({ s with state := .connectionError }, true, true) ∧
    recv_step s (.frame (some .nonBytes)) =
      some ({ s with state := .connectionError }, true, true) ∧
    recv_step s (.frame (some (.bytes none))) = none :=
  ⟨rfl, rfl, rfl, rfl⟩

/-! ## Claim C10: bounds safety of `click_tile` -/

/-- All positions collected by a reverse two-touch loop satisfy `P` when the
seed does and both touched cells do, for every iteration index. -/
theorem loopRev_cons_mem (f1 f2 : Nat → Pos) (P : Pos → Prop) :
    ∀ (n a : Nat) (l : List Pos), (∀ q ∈ l, P q) →
      (∀ i, a ≤ i → i < a + n → P (f1 i) ∧ P (f2 i)) →
      ∀ q ∈ loopRev (fun (l : List Pos) i => f1 i :: f2 i :: l) a n l, P q := by
  intro n
  induction n with
  | zero =>
    intro a l hl _ q hq
    exact hl q hq
  | succ n ih =>
    intro a l hl hf q hq
    simp only [loopRev] at hq
    refine ih a _ ?_ (fun i h1 h2 => hf i h1 (by omega)) q hq
    intro p hp
    rcases List.mem_cons.mp hp with rfl | hp2
    · exact (hf (a + n) (by omega) (by omega)).1
    rcases List.mem_cons.mp hp2 with rfl | hp3
    · exact (hf (a + n) (by omega) (by omega)).2
    exact hl p hp3

/-- All positions collected by a forward two-touch loop satisfy `P` when the
seed does and both touched cells do, for every iteration index. -/
theorem loopFwd_cons_mem (f1 f2 : Nat → Pos) (P : Pos → Prop) :
    ∀ (n a : Nat) (l : List Pos), (∀ q ∈ l, P q) →
      (∀ i, a ≤ i → i < a + n → P (f1 i) ∧ P (f2 i)) →
      ∀ q ∈ loopFwd (fun (l : List Pos) i => f1 i :: f2 i :: l) a n l, P q := by
  intro n
  induction n with
  | zero =>
    intro a l hl _ q hq
    exact hl q hq
  | succ n ih =>
    intro a l hl hf q hq
    simp only [loopFwd] at hq
    refine ih (a + 1) _ ?_ (fun i h1 h2 => hf i (by omega) (by omega)) q hq
    intro p hp
    rcases List.mem_cons.mp hp with rfl | hp2
    · exact (hf a (by omega) (by omega)).1
    rcases List.mem_cons.mp hp2 with rfl | hp3
    · exact (hf a (by omega) (by omega)).2
    exact hl p hp3

/-- C10: with the hole and the clicked position inside the 5×5 grid, every
array index evaluated by `click_tile` is in range; conversely the
out-of-bounds click `(2, 6)`, sharing its row with the hole `(2, 2)`,
makes `click_tile` index past the arrays (column 6), so the server's bounds
check before calling it is load-bearing; and in the `Playing` state the
client applies `click_pos` to a received `OpponentClick` position
unconditionally, with no bounds check. -/
theorem claim_C10_click_tile_bounds_safety :
    (∀ pos hole : Pos, inBounds pos → inBounds hole →
      ∀ q ∈ click_tile_accesses pos hole, q.1 < 5 ∧ q.2 < 5) ∧
    (∃ q ∈ click_tile_accesses (2, 6) (2, 2), 5 ≤ q.2) ∧
    (∀ (sess : ClientSession) (b : Board Color) (pos : Pos),
      sess.state = .playing → sess.opponentBoard = some b →
      handle_server_message sess (.opponentClick pos) =
        some ({ sess with opponentBoard := some (b.click_pos pos).2 }, false)) := by
  refine ⟨?_, ?_, ?_⟩
  · intro pos hole hp hh q hq
    have hp' : pos.1 < 5 ∧ pos.2 < 5 := hp
    have hh' : hole.1 < 5 ∧ hole.2 < 5 := hh
    unfold click_tile_accesses at hq
    split_ifs at hq
    · rcases List.mem_append.mp hq with hq1 | hq2
      · refine loopRev_cons_mem _ _ (fun r => r.1 < 5 ∧ r.2 < 5) (hole.2 - pos.2) pos.2 [] (by simp) ?_ q hq1
        intro i h1 h2
        constructor <;> constructor <;> omega
      · rcases List.mem_singleton.mp hq2 with rfl
        exact ⟨hp'.1, hp'.2⟩
    · rcases List.mem_append.mp hq with hq1 | hq2
      · refine loopFwd_cons_mem _ _ (fun r => r.1 < 5 ∧ r.2 < 5) (pos.2 - hole.2) hole.2 [] (by simp) ?_ q hq1
        intro i h1 h2
        constructor <;> constructor <;> omega
      · rcases List.mem_singleton.mp hq2 with rfl
        exact ⟨hp'.1, hp'.2⟩
    · exact absurd hq (List.not_mem_nil q)
    · rcases List.mem_append.mp hq with hq1 | hq2
      · refine loopRev_cons_mem _ _ (fun r => r.1 < 5 ∧ r.2 < 5) (hole.1 - pos.1) pos.1 [] (by simp) ?_ q hq1
        intro i h1 h2
        constructor <;> constructor <;> omega
      · rcases List.mem_singleton.mp hq2 with rfl
        exact ⟨hp'.1, hp'.2⟩
    · rcases List.mem_append.mp hq with hq1 | hq2
      · refine loopFwd_cons_mem _ _ (fun r => r.1 < 5 ∧ r.2 < 5) (pos.1 - hole.1) hole.1 [] (by simp) ?_ q hq1
        intro i h1 h2
        constructor <;> constructor <;> omega
      · rcases List.mem_singleton.mp hq2 with rfl
        exact ⟨hp'.1, hp'.2⟩
    · exact absurd hq (List.not_mem_nil q)
    · exact absurd hq (List.not_mem_nil q)
  · decide
  · intro sess b pos h1 h2
    simp only [handle_server_message]
    rw [if_neg (show ¬ sess.state ≠ ClientState.playing from fun hc => hc h1), h2]

/-- Witness for C10: in-bounds click `(2, 1)` with hole `(2, 3)`, and the
playing-state session applying an out-of-bounds opponent click `(2, 6)`. -/
theorem claim_C10_click_tile_bounds_safety_witness :
    inBounds ((2, 1) : Pos) ∧ inBounds ((2, 3) : Pos) ∧
    (∀ q ∈ click_tile_accesses (2, 1) (2, 3), q.1 < 5 ∧ q.2 < 5) ∧
    exPlayingSession.state = .playing ∧
    exPlayingSession.opponentBoard = some exRowBoard ∧
    handle_server_message exPlayingSession (.opponentClick (2, 6)) =
      some ({ exPlayingSession with
        opponentBoard := some (exRowBoard.click_pos (2, 6)).2 }, false) :=
  ⟨by decide, by decide,
   claim_C10_click_tile_bounds_safety.1 (2, 1) (2, 3) (by decide) (by decide),
   rfl, rfl,
   claim_C10_click_tile_bounds_safety.2.2 exPlayingSession exRowBoard (2, 6) rfl rfl⟩

end RubiksRace
